import Mathlib

/-!
Verification of the chess engine in `chess_engine.py` (class `ChessEngine`).

The engine delegates board bookkeeping and move generation to an external
board/rules collaborator (the `chess` library), which the repository's design
document treats as an external dependency with a fixed contract.  We embed the
engine's own code faithfully, parameterised over an abstract collaborator
interface `Rules B` whose fields are exactly the collaborator queries the
engine calls.  Quantities the collaborator derives directly from the piece
placement (`board.pieces(...)` counts, `board.king(color)`) are kept as
interface fields as well, related to `pieceAt` by explicit hypotheses where a
claim needs it.

Python `float('inf')` bounds only ever interact with integer evaluation scores
through comparison, negation, `max` and `min`, so they are embedded exactly by
the three-valued `Score` type below; no floating-point rounding can occur.
-/

namespace ChessEngineModel

/-- Piece colors; `chess.WHITE` / `chess.BLACK`. -/
inductive Color where
  | white : Color
  | black : Color
deriving DecidableEq

/-- Swap a color (used to state mirror properties). -/
def Color.swap : Color → Color
  | Color.white => Color.black
  | Color.black => Color.white

instance : Fintype Color :=
  ⟨⟨{Color.white, Color.black}, by decide⟩, by intro x; cases x <;> decide⟩

/-- Piece kinds; `chess.PAWN .. chess.KING`. -/
inductive PieceType where
  | pawn : PieceType
  | knight : PieceType
  | bishop : PieceType
  | rook : PieceType
  | queen : PieceType
  | king : PieceType
deriving DecidableEq

instance : Fintype PieceType :=
  ⟨⟨{PieceType.pawn, PieceType.knight, PieceType.bishop, PieceType.rook,
     PieceType.queen, PieceType.king}, by decide⟩, by intro x; cases x <;> decide⟩

/-- A colored piece; `chess.Piece`. -/
structure Piece where
  pieceType : PieceType
  color : Color
deriving DecidableEq

/-- Swap the color of a piece. -/
def Piece.swap (p : Piece) : Piece := ⟨p.pieceType, p.color.swap⟩

/-- A move; `chess.Move` (origin square, destination square, optional
promotion).  Squares are numbered 0..63, a1 = 0, h8 = 63, as in the
`chess` library. -/
structure Move where
  fromSq : Nat
  toSq : Nat
  promo : Option PieceType
deriving DecidableEq

instance : Inhabited Move := ⟨⟨0, 0, none⟩⟩

/-- `chess.square_file`. -/
def squareFile (s : Nat) : Nat := s % 8

/-- `chess.square_rank`. -/
def squareRank (s : Nat) : Nat := s / 8

/-- `chess.square_name`: file letter then rank digit. -/
def squareName (s : Nat) : String :=
  String.mk [Char.ofNat (97 + squareFile s), Char.ofNat (49 + squareRank s)]

/-- Piece letter used in UCI promotion suffixes (`chess.PIECE_SYMBOLS`). -/
def pieceSymbol : PieceType → String
  | PieceType.pawn => "p"
  | PieceType.knight => "n"
  | PieceType.bishop => "b"
  | PieceType.rook => "r"
  | PieceType.queen => "q"
  | PieceType.king => "k"

/-- `chess.Move.uci()`. -/
def Move.uci (m : Move) : String :=
  squareName m.fromSq ++ squareName m.toSq ++
    (match m.promo with
     | none => ""
     | some t => pieceSymbol t)

/-- Parse a square name from its two characters (`chess.parse_square`);
`none` models the `ValueError` raised on malformed input. -/
def parseSquareChars (f r : Char) : Option Nat :=
  if 97 ≤ f.toNat ∧ f.toNat ≤ 104 ∧ 49 ≤ r.toNat ∧ r.toNat ≤ 56 then
    some ((r.toNat - 49) * 8 + (f.toNat - 97))
  else
    none

/-- Parse a promotion piece letter (index into `chess.PIECE_SYMBOLS`). -/
def parsePieceSymbol (c : Char) : Option PieceType :=
  if c = 'p' then some PieceType.pawn
  else if c = 'n' then some PieceType.knight
  else if c = 'b' then some PieceType.bishop
  else if c = 'r' then some PieceType.rook
  else if c = 'q' then some PieceType.queen
  else if c = 'k' then some PieceType.king
  else none

/-- `chess.Move.from_uci`; `none` models the `ValueError` on malformed codes.
The special null-move code yields `Move(0, 0)` exactly as in the library. -/
def Move.fromUci (s : String) : Option Move :=
  if s = "0000" then some ⟨0, 0, none⟩
  else
    match s.data with
    | [f1, r1, f2, r2] =>
      match parseSquareChars f1 r1, parseSquareChars f2 r2 with
      | some a, some b => some ⟨a, b, none⟩
      | _, _ => none
    | [f1, r1, f2, r2, p] =>
      match parseSquareChars f1 r1, parseSquareChars f2 r2, parsePieceSymbol p with
      | some a, some b, some t => some ⟨a, b, some t⟩
      | _, _, _ => none
    | _ => none

/-- `PIECE_VALUES`. -/
def pieceValue : PieceType → Int
  | PieceType.pawn => 100
  | PieceType.knight => 320
  | PieceType.bishop => 330
  | PieceType.rook => 500
  | PieceType.queen => 900
  | PieceType.king => 20000

/-- `PAWN_TABLE`. -/
def PAWN_TABLE : List Int :=
  [0,  0,  0,  0,  0,  0,  0,  0,
   50, 50, 50, 50, 50, 50, 50, 50,
   10, 10, 20, 30, 30, 20, 10, 10,
   5,  5, 10, 25, 25, 10,  5,  5,
   0,  0,  0, 20, 20,  0,  0,  0,
   5, -5, -10,  0,  0, -10, -5,  5,
   5, 10, 10, -20, -20, 10, 10,  5,
   0,  0,  0,  0,  0,  0,  0,  0]

/-- `KNIGHT_TABLE`. -/
def KNIGHT_TABLE : List Int :=
  [-50, -40, -30, -30, -30, -30, -40, -50,
   -40, -20,  0,  0,  0,  0, -20, -40,
   -30,  0, 10, 15, 15, 10,  0, -30,
   -30,  5, 15, 20, 20, 15,  5, -30,
   -30,  0, 15, 20, 20, 15,  0, -30,
   -30,  5, 10, 15, 15, 10,  5, -30,
   -40, -20,  0,  5,  5,  0, -20, -40,
   -50, -40, -30, -30, -30, -30, -40, -50]

/-- `BISHOP_TABLE`. -/
def BISHOP_TABLE : List Int :=
  [-20, -10, -10, -10, -10, -10, -10, -20,
   -10,  0,  0,  0,  0,  0,  0, -10,
   -10,  0,  5, 10, 10,  5,  0, -10,
   -10,  5,  5, 10, 10,  5,  5, -10,
   -10,  0, 10, 10, 10, 10,  0, -10,
   -10, 10, 10, 10, 10, 10, 10, -10,
   -10,  5,  0,  0,  0,  0,  5, -10,
   -20, -10, -10, -10, -10, -10, -10, -20]

/-- `ROOK_TABLE`. -/
def ROOK_TABLE : List Int :=
  [0,  0,  0,  0,  0,  0,  0,  0,
   5, 10, 10, 10, 10, 10, 10,  5,
   -5,  0,  0,  0,  0,  0,  0, -5,
   -5,  0,  0,  0,  0,  0,  0, -5,
   -5,  0,  0,  0,  0,  0,  0, -5,
   -5,  0,  0,  0,  0,  0,  0, -5,
   -5,  0,  0,  0,  0,  0,  0, -5,
   0,  0,  0,  5,  5,  0,  0,  0]

/-- `QUEEN_TABLE`.  Note rows five to seven are not left-right symmetric. -/
def QUEEN_TABLE : List Int :=
  [-20, -10, -10, -5, -5, -10, -10, -20,
   -10,  0,  0,  0,  0,  0,  0, -10,
   -10,  0,  5,  5,  5,  5,  0, -10,
   -5,  0,  5,  5,  5,  5,  0, -5,
   0,  0,  5,  5,  5,  5,  0, -5,
   -10,  5,  5,  5,  5,  5,  0, -10,
   -10,  0,  5,  0,  0,  0,  0, -10,
   -20, -10, -10, -5, -5, -10, -10, -20]

/-- `KING_MIDDLE_TABLE`. -/
def KING_MIDDLE_TABLE : List Int :=
  [-30, -40, -40, -50, -50, -40, -40, -30,
   -30, -40, -40, -50, -50, -40, -40, -30,
   -30, -40, -40, -50, -50, -40, -40, -30,
   -30, -40, -40, -50, -50, -40, -40, -30,
   -20, -30, -30, -40, -40, -30, -30, -20,
   -10, -20, -20, -20, -20, -20, -20, -10,
   20, 20,  0,  0,  0,  0, 20, 20,
   20, 30, 10,  0,  0, 10, 30, 20]

/-- `KING_END_TABLE`. -/
def KING_END_TABLE : List Int :=
  [-50, -40, -30, -20, -20, -30, -40, -50,
   -30, -20, -10,  0,  0, -10, -20, -30,
   -30, -10, 20, 30, 30, 20, -10, -30,
   -30, -10, 30, 40, 40, 30, -10, -30,
   -30, -10, 30, 40, 40, 30, -10, -30,
   -30, -10, 20, 30, 30, 20, -10, -30,
   -30, -30,  0,  0,  0,  0, -30, -30,
   -50, -30, -30, -30, -30, -30, -30, -50]

/-- `ENGLISH_OPENING` book (move-sequence key, listed continuations). -/
def ENGLISH_OPENING : List (String × List String) :=
  [("", ["c2c4"]),
   ("e7e5", ["b1c3", "g2g3"]),
   ("e7e5 b1c3", ["g8f6", "b8c6"]),
   ("e7e5 g2g3", ["g8f6", "b8c6"]),
   ("c7c5", ["b1c3", "g2g3"]),
   ("c7c5 b1c3", ["b8c6", "g8f6"]),
   ("g8f6", ["b1c3", "g2g3"]),
   ("g8f6 b1c3", ["e7e5", "d7d5"]),
   ("d7d5", ["c4d5", "b1c3"]),
   ("e7e6", ["b1c3", "g2g3", "g1f3"])]

/-- `ENGLISH_THEMATIC_MOVES`. -/
def ENGLISH_THEMATIC_MOVES : List String :=
  ["b1c3", "g2g3", "f1g2", "g1f3", "e1g1", "d2d3", "e2e4", "b2b3"]

/-- `MODERN_DEFENSE` book. -/
def MODERN_DEFENSE : List (String × List String) :=
  [("e2e4", ["g7g6"]),
   ("e2e4 g7g6", ["d7d6", "f8g7"]),
   ("e2e4 g7g6 d2d4", ["f8g7"]),
   ("e2e4 g7g6 d2d4 f8g7", ["b8c6", "d7d6"]),
   ("e2e4 g7g6 g1f3", ["f8g7"]),
   ("e2e4 g7g6 g1f3 f8g7", ["d7d6", "c7c5"]),
   ("e2e4 g7g6 b1c3", ["f8g7"]),
   ("e2e4 g7g6 b1c3 f8g7", ["d7d6", "c7c5"]),
   ("d2d4", ["g7g6"]),
   ("d2d4 g7g6", ["f8g7"]),
   ("d2d4 g7g6 e2e4", ["f8g7"]),
   ("d2d4 g7g6 c2c4", ["f8g7"]),
   ("g1f3", ["g7g6"]),
   ("c2c4", ["g7g6"])]

/-- `MODERN_THEMATIC_MOVES`. -/
def MODERN_THEMATIC_MOVES : List String :=
  ["g7g6", "f8g7", "d7d6", "b8d7", "e7e5", "c7c6", "a7a6", "b7b5"]

/-- Python dict membership plus indexing, `seq in BOOK` / `BOOK[seq]`. -/
def lookupBook (book : List (String × List String)) (k : String) : Option (List String) :=
  (book.find? (fun e => decide (e.1 = k))).map (fun e => e.2)

/-- `safety_threshold` set in `ChessEngine.__init__` and never reassigned. -/
def safety_threshold : Int := -200

/-- Search scores: the engine mixes integer evaluations with Python's
`float('inf')` sentinels.  All operations performed on them (comparison,
negation, `max`, `min`) are exact, so this three-valued type is a faithful
embedding. -/
inductive Score where
  | negInf : Score
  | int : Int → Score
  | posInf : Score
deriving DecidableEq

/-- Python `<=` on scores. -/
def Score.ble : Score → Score → Bool
  | Score.negInf, _ => true
  | Score.int _, Score.negInf => false
  | Score.int a, Score.int b => decide (a ≤ b)
  | Score.int _, Score.posInf => true
  | Score.posInf, Score.posInf => true
  | Score.posInf, _ => false

/-- Python `<` on scores (total order, so `a < b` iff not `b <= a`). -/
def Score.blt (a b : Score) : Bool := !(Score.ble b a)

/-- Python unary minus on scores. -/
def Score.neg : Score → Score
  | Score.negInf => Score.posInf
  | Score.int n => Score.int (-n)
  | Score.posInf => Score.negInf

/-- Python `max` on scores. -/
def Score.smax (a b : Score) : Score := if Score.ble a b then b else a

/-- Python `min` on scores. -/
def Score.smin (a b : Score) : Score := if Score.ble a b then a else b

/-- The board/rules collaborator interface (the `chess` library calls the
engine makes).  `B` is the type of positions.  `legalMovesFor b c` is the
legal-move list of position `b` with the turn forced to `c` (the engine flips
`board.turn` in place to compute mobility); the ordinary legal-move list is
`legalMovesFor b (turn b)`.  `push` returns the successor position; because the
collaborator contract makes `push`/`pop` exactly reversible, the engine's
push/evaluate/pop idiom is embedded by simply using the successor value and
keeping the original. -/
structure Rules (B : Type) where
  pieceAt : B → Nat → Option Piece
  turn : B → Color
  legalMovesFor : B → Color → List Move
  push : B → Move → B
  isCheck : B → Bool
  isCheckmate : B → Bool
  isStalemate : B → Bool
  isInsufficientMaterial : B → Bool
  isGameOver : B → Bool
  isCapture : B → Move → Bool
  kingSq : B → Color → Option Nat
  piecesCount : B → PieceType → Color → Nat
  parseFen : String → Option B
  start : B

/-- `self.board.legal_moves` for the side to move. -/
def Rules.legalMoves {B : Type} (R : Rules B) (b : B) : List Move :=
  R.legalMovesFor b (R.turn b)

/-- `ChessEngine.is_endgame`. -/
def is_endgame {B : Type} (R : Rules B) (b : B) : Bool :=
  let queens := R.piecesCount b PieceType.queen Color.white +
                R.piecesCount b PieceType.queen Color.black
  let minor_pieces := R.piecesCount b PieceType.knight Color.white +
                      R.piecesCount b PieceType.bishop Color.white +
                      R.piecesCount b PieceType.knight Color.black +
                      R.piecesCount b PieceType.bishop Color.black
  queens == 0 || (queens == 2 && minor_pieces ≤ 2)

/-- Table selected for a piece type in `get_piece_square_value`
(`piece_tables.get(piece_type, [0] * 64)` together with the king branch). -/
def pieceTable (endgame : Bool) : PieceType → List Int
  | PieceType.pawn => PAWN_TABLE
  | PieceType.knight => KNIGHT_TABLE
  | PieceType.bishop => BISHOP_TABLE
  | PieceType.rook => ROOK_TABLE
  | PieceType.queen => QUEEN_TABLE
  | PieceType.king => if endgame then KING_END_TABLE else KING_MIDDLE_TABLE

/-- `ChessEngine.get_piece_square_value`. -/
def get_piece_square_value {B : Type} (R : Rules B) (b : B) (p : Piece) (square : Nat) : Int :=
  let table := pieceTable (is_endgame R b) p.pieceType
  if p.color = Color.white then
    table.getD (63 - square) 0
  else
    table.getD square 0

/-- `ChessEngine.evaluate_mobility`: the engine flips `board.turn` in place,
counts legal moves for each color, restores the turn, and returns the
difference scaled by 5. -/
def evaluate_mobility {B : Type} (R : Rules B) (b : B) : Int :=
  let white_mobility : Int := (R.legalMovesFor b Color.white).length
  let black_mobility : Int := (R.legalMovesFor b Color.black).length
  (white_mobility - black_mobility) * 5

/-- One iteration of the `file_offset` loop in
`ChessEngine.evaluate_king_safety`. -/
def shieldStep {B : Type} (R : Rules B) (b : B) (color : Color)
    (king_file king_rank : Int) (acc : Int) (file_offset : Int) : Int :=
  let pawn_direction : Int := if color = Color.white then 1 else -1
  let check_file := king_file + file_offset
  let check_rank := king_rank + pawn_direction
  if 0 ≤ check_file ∧ check_file ≤ 7 ∧ 0 ≤ check_rank ∧ check_rank ≤ 7 then
    match R.pieceAt b (check_rank * 8 + check_file).toNat with
    | some p =>
      if p.pieceType = PieceType.pawn ∧ p.color = color then acc + 10 else acc
    | none => acc
  else acc

/-- Pawn-shield bonus accumulated for one color inside
`ChessEngine.evaluate_king_safety`. -/
def shieldBonus {B : Type} (R : Rules B) (b : B) (color : Color) : Int :=
  match R.kingSq b color with
  | none => 0
  | some king_square =>
    ([-1, 0, 1] : List Int).foldl
      (shieldStep R b color ((squareFile king_square : Nat) : Int)
        ((squareRank king_square : Nat) : Int)) 0

/-- `ChessEngine.evaluate_king_safety`. -/
def evaluate_king_safety {B : Type} (R : Rules B) (b : B) : Int :=
  shieldBonus R b Color.white - shieldBonus R b Color.black

/-- Contribution of one square to the material/positional loop in
`ChessEngine.evaluate`. -/
def pieceTerm {B : Type} (R : Rules B) (b : B) (square : Nat) : Int :=
  match R.pieceAt b square with
  | none => 0
  | some piece =>
    let value := pieceValue piece.pieceType + get_piece_square_value R b piece square
    if piece.color = Color.white then value else -value

/-- `ChessEngine.evaluate`. -/
def evaluate {B : Type} (R : Rules B) (b : B) : Int :=
  if R.isCheckmate b then
    (if R.turn b = Color.white then -30000 else 30000)
  else if R.isStalemate b || R.isInsufficientMaterial b then 0
  else
    let material := ((List.range 64).map (fun s => pieceTerm R b s)).sum
    let score := material + evaluate_mobility R b
    let score := score + (if is_endgame R b then 0 else evaluate_king_safety R b)
    score + (if R.isCheck b then (if R.turn b = Color.white then -30 else 30) else 0)

/-- Stable descending insertion into a list sorted descending by the integer
key; a new element goes after existing elements with an equal key, matching
Python's stable `list.sort(key=..., reverse=True)`. -/
def insertDesc {α : Type} (x : Int × α) : List (Int × α) → List (Int × α)
  | [] => [x]
  | y :: ys => if y.1 < x.1 then x :: y :: ys else y :: insertDesc x ys

/-- Stable descending sort by the integer key (Python
`list.sort(key=lambda x: x[0], reverse=True)` is exactly the stable
descending sort, which is unique, so any stable implementation agrees). -/
def sortDesc {α : Type} (l : List (Int × α)) : List (Int × α) :=
  l.foldl (fun acc x => insertDesc x acc) []

/-- Heuristic score of one candidate move in `ChessEngine.order_moves`.
The centrality term `int(((3.5-|f-3.5|)+(3.5-|r-3.5|)) * 5)` is integer-valued
for files and ranks in 0..7, and equals the integer expression used here. -/
def moveOrderScore {B : Type} (R : Rules B) (b : B) (move : Move) : Int :=
  let captureScore : Int :=
    if R.isCapture b move then
      match R.pieceAt b move.toSq, R.pieceAt b move.fromSq with
      | some captured, some attacker =>
        10 * pieceValue captured.pieceType - pieceValue attacker.pieceType
      | _, _ => 0
    else 0
  let promoScore : Int :=
    match move.promo with
    | some t => pieceValue t
    | none => 0
  let checkScore : Int := if R.isCheck (R.push b move) then 50 else 0
  let to_file : Int := (squareFile move.toSq : Nat)
  let to_rank : Int := (squareRank move.toSq : Nat)
  let center_bonus := (7 - (2 * to_file - 7).natAbs) / 2 + (7 - (2 * to_rank - 7).natAbs) / 2
  captureScore + promoScore + checkScore + (center_bonus : Int) * 5

/-- `ChessEngine.order_moves`. -/
def order_moves {B : Type} (R : Rules B) (b : B) (moves : List Move) : List Move :=
  (sortDesc (moves.map (fun m => (moveOrderScore R b m, m)))).map (fun x => x.2)

/-- Capture loop of `ChessEngine.quiescence`; `q` is the recursive call at the
next extra depth. -/
def qLoop {B : Type} (R : Rules B)
    (q : B → Score → Score → Nat → Score × Nat) :
    List Move → B → Score → Score → Nat → Score × Nat
  | [], _, alpha, _, nodes => (alpha, nodes)
  | move :: rest, b, alpha, beta, nodes =>
    if !(R.isCapture b move) then qLoop R q rest b alpha beta nodes
    else
      let (s, nodes) := q (R.push b move) (Score.neg beta) (Score.neg alpha) nodes
      let score := Score.neg s
      if Score.ble beta score then (beta, nodes)
      else if Score.blt alpha score then qLoop R q rest b score beta nodes
      else qLoop R q rest b alpha beta nodes

/-- `ChessEngine.quiescence`, with the recursion carried by the remaining
extra depth `fuel = 5 - depth`: the source starts at `depth = 0` and the
`depth > 4` guard fires exactly when `fuel = 0`.  The second component threads
`self.nodes_searched`. -/
def quiescence {B : Type} (R : Rules B) :
    Nat → B → Score → Score → Nat → Score × Nat
  | fuel, b, alpha, beta, nodes =>
    let nodes := nodes + 1
    let stand_pat : Int :=
      if R.turn b = Color.black then -(evaluate R b) else evaluate R b
    if Score.ble beta (Score.int stand_pat) then (beta, nodes)
    else
      let alpha :=
        if Score.blt alpha (Score.int stand_pat) then Score.int stand_pat else alpha
      match fuel with
      | 0 => (alpha, nodes)
      | fuel + 1 => qLoop R (quiescence R fuel) (R.legalMoves b) b alpha beta nodes

/-- Maximizing loop of `ChessEngine.minimax`; `rec_` is the recursive search
at `depth - 1`. -/
def maxLoop {B : Type} (R : Rules B)
    (rec_ : B → Score → Score → Bool → Nat → Score × Option Move × Nat) :
    List Move → B → Score → Score → Score → Option Move → Nat →
      Score × Option Move × Nat
  | [], _, _, _, max_eval, best_move, nodes => (max_eval, best_move, nodes)
  | move :: rest, b, alpha, beta, max_eval, best_move, nodes =>
    let (eval_score, _, nodes) := rec_ (R.push b move) alpha beta false nodes
    let (max_eval, best_move) :=
      if Score.blt max_eval eval_score then (eval_score, some move)
      else (max_eval, best_move)
    let alpha := Score.smax alpha eval_score
    if Score.ble beta alpha then (max_eval, best_move, nodes)
    else maxLoop R rec_ rest b alpha beta max_eval best_move nodes

/-- Minimizing loop of `ChessEngine.minimax`. -/
def minLoop {B : Type} (R : Rules B)
    (rec_ : B → Score → Score → Bool → Nat → Score × Option Move × Nat) :
    List Move → B → Score → Score → Score → Option Move → Nat →
      Score × Option Move × Nat
  | [], _, _, _, min_eval, best_move, nodes => (min_eval, best_move, nodes)
  | move :: rest, b, alpha, beta, min_eval, best_move, nodes =>
    let (eval_score, _, nodes) := rec_ (R.push b move) alpha beta true nodes
    let (min_eval, best_move) :=
      if Score.blt eval_score min_eval then (eval_score, some move)
      else (min_eval, best_move)
    let beta := Score.smin beta eval_score
    if Score.ble beta alpha then (min_eval, best_move, nodes)
    else minLoop R rec_ rest b alpha beta min_eval best_move nodes

/-- Shared leaf branch of `ChessEngine.minimax` (`depth == 0` or game over):
hand off to quiescence and normalize the sign for the side to move. -/
def minimaxLeaf {B : Type} (R : Rules B) (b : B) (alpha beta : Score) (nodes : Nat) :
    Score × Option Move × Nat :=
  let (score, nodes) := quiescence R 5 b alpha beta nodes
  ((if R.turn b = Color.white then score else Score.neg score), none, nodes)

/-- Timeout branch of `ChessEngine.minimax`. -/
def minimaxTimeout {B : Type} (R : Rules B) (b : B) (maximizing : Bool) (nodes : Nat) :
    Score × Option Move × Nat :=
  let eval_score := evaluate R b
  ((if maximizing then Score.int eval_score else Score.int (-eval_score)), none, nodes)

/-- `ChessEngine.minimax`.  `timeo n` is the outcome of the wall-clock budget
check `time.time() - self.start_time > self.max_time` at the node whose
post-increment `nodes_searched` value is `n`; quantifying over `timeo` covers
every possible timing behaviour. -/
def minimax {B : Type} (R : Rules B) (timeo : Nat → Bool) :
    Nat → B → Score → Score → Bool → Nat → Score × Option Move × Nat
  | 0, b, alpha, beta, maximizing, nodes =>
    let nodes := nodes + 1
    if timeo nodes then minimaxTimeout R b maximizing nodes
    else minimaxLeaf R b alpha beta nodes
  | depth + 1, b, alpha, beta, maximizing, nodes =>
    let nodes := nodes + 1
    if timeo nodes then minimaxTimeout R b maximizing nodes
    else if R.isGameOver b then minimaxLeaf R b alpha beta nodes
    else
      let moves := order_moves R b (R.legalMoves b)
      if maximizing then
        maxLoop R (minimax R timeo depth) moves b alpha beta Score.negInf none nodes
      else
        minLoop R (minimax R timeo depth) moves b alpha beta Score.posInf none nodes

/-- `ChessEngine._get_thematic_move`: the list of UCI codes of legal moves in
the thematic pool that pass the safety filter, in legal-move order.
`aiWhite` is the truth value of `self.ai_color == chess.WHITE` used for the
perspective sign. -/
def thematicLegal {B : Type} (R : Rules B) (b : B) (aiWhite : Bool)
    (thematic_moves : List String) : List String :=
  (R.legalMoves b).filterMap (fun move =>
    if thematic_moves.contains (Move.uci move) then
      let eval_score := evaluate R (R.push b move)
      let perspective : Int := if aiWhite then 1 else -1
      if safety_threshold ≤ eval_score * perspective then some (Move.uci move)
      else none
    else none)

/-- Uniform choice `random.choice(l)` on a non-empty list, with the random
outcome supplied as an arbitrary index `i` (every element is picked for some
`i`, so quantifying over `i` covers every outcome). -/
def pickFrom (l : List String) (i : Nat) : String := l.getD (i % l.length) ""

/-- Tail of `ChessEngine._get_thematic_move`: `coin` is the outcome of
`random.random() < 0.7` and `idx` the outcome of `random.choice`. -/
def get_thematic_move {B : Type} (R : Rules B) (b : B) (aiWhite : Bool)
    (thematic_moves : List String) (coin : Bool) (idx : Nat) : Option String :=
  let tl := thematicLegal R b aiWhite thematic_moves
  if !tl.isEmpty && coin then some (pickFrom tl idx) else none

/-- `ChessEngine.get_opening_move`.  `history` is `self.move_history`;
`bookIdx`, `themCoin`, `themIdx` are the outcomes of the random draws. -/
def get_opening_move {B : Type} (R : Rules B) (b : B) (history : List Move)
    (ai_color : Option Color) (bookIdx : Nat) (themCoin : Bool) (themIdx : Nat) :
    Option String :=
  let move_sequence := String.intercalate (" ") (history.map Move.uci)
  let move_count := history.length
  match ai_color with
  | some Color.white =>
    match lookupBook ENGLISH_OPENING move_sequence with
    | some moves => some (pickFrom moves bookIdx)
    | none =>
      if move_count < 12 then
        get_thematic_move R b true ENGLISH_THEMATIC_MOVES themCoin themIdx
      else none
  | some Color.black =>
    match lookupBook MODERN_DEFENSE move_sequence with
    | some moves => some (pickFrom moves bookIdx)
    | none =>
      if move_count < 12 then
        get_thematic_move R b false MODERN_THEMATIC_MOVES themCoin themIdx
      else none
  | none => none

/-- The safety-net re-scan at the end of `ChessEngine.get_best_move`: one-ply
candidates whose post-move evaluation from the agent's perspective clears the
safety threshold, paired with that evaluation, in legal-move order. -/
def safeMoves {B : Type} (R : Rules B) (b : B) (perspective : Int) :
    List (Int × Move) :=
  (R.legalMoves b).filterMap (fun move =>
    let eval_after := evaluate R (R.push b move) * perspective
    if safety_threshold ≤ eval_after then some (eval_after, move) else none)

/-- The opening short-circuit of `ChessEngine.get_best_move`: the advised
move when it is currently legal (`move in self.board.legal_moves`, located
here by its UCI code, which determines the move). -/
def bookHit {B : Type} (R : Rules B) (b : B) (opening_move : Option String) :
    Option Move :=
  match opening_move with
  | some s => (R.legalMoves b).find? (fun m => decide (Move.uci m = s))
  | none => none

/-- The random-fallback stage of `ChessEngine.get_best_move`: keep the search
move if there is one, otherwise pick a uniformly random legal move (if any). -/
def fallbackChoice {B : Type} (R : Rules B) (b : B) (best_move : Option Move)
    (fallbackIdx : Nat) : Option Move :=
  match best_move with
  | some m => some m
  | none =>
    let legal_moves := R.legalMoves b
    if legal_moves.isEmpty then none
    else some (legal_moves.getD (fallbackIdx % legal_moves.length) default)

/-- The safety-net stage of `ChessEngine.get_best_move`: when the engine has
an assigned side and the chosen move's one-ply evaluation from that side's
perspective falls below the safety threshold, substitute the best-evaluated
safe alternative if one exists. -/
def safetyNet {B : Type} (R : Rules B) (b : B) (ai_color : Option Color)
    (best_move : Option Move) : Option Move :=
  match best_move, ai_color with
  | some m, some ac =>
    let post_eval := evaluate R (R.push b m)
    let perspective : Int := if ac = Color.white then 1 else -1
    let ai_eval := post_eval * perspective
    if ai_eval < safety_threshold then
      match sortDesc (safeMoves R b perspective) with
      | [] => some m
      | best :: _ => some best.2
    else some m
  | some m, none => some m
  | none, _ => none

/-- `ChessEngine.get_best_move`, returning the selected `chess.Move` (the
Python function returns its UCI code; see `get_best_move_uci`).  The random
draws of the call are supplied as `bookIdx`/`themCoin`/`themIdx` (opening
advisor) and `fallbackIdx` (`random.choice(legal_moves)` fallback). -/
def get_best_move {B : Type} (R : Rules B) (timeo : Nat → Bool)
    (b : B) (history : List Move) (ai_color : Option Color)
    (bookIdx : Nat) (themCoin : Bool) (themIdx : Nat) (fallbackIdx : Nat)
    (depth : Nat) : Option Move :=
  if R.isGameOver b then none
  else
    let opening_move := get_opening_move R b history ai_color bookIdx themCoin themIdx
    match bookHit R b opening_move with
    | some m => some m
    | none =>
      let depth := max 1 (min 5 depth)
      let is_maximizing := R.turn b = Color.white
      let (_, best_move, _) :=
        minimax R timeo depth b Score.negInf Score.posInf (decide is_maximizing) 0
      safetyNet R b ai_color (fallbackChoice R b best_move fallbackIdx)

/-- `ChessEngine.get_best_move` as written: the UCI code of the move. -/
def get_best_move_uci {B : Type} (R : Rules B) (timeo : Nat → Bool)
    (b : B) (history : List Move) (ai_color : Option Color)
    (bookIdx : Nat) (themCoin : Bool) (themIdx : Nat) (fallbackIdx : Nat)
    (depth : Nat) : Option String :=
  (get_best_move R timeo b history ai_color bookIdx themCoin themIdx fallbackIdx
      depth).map Move.uci

/-- The `chess.Board` object held by the engine: current position plus the
internal move stack that `push`/`pop` maintain. -/
structure BoardObj (B : Type) where
  pos : B
  stack : List B
deriving DecidableEq

/-- Mutable state of a `ChessEngine` session (the fields touched by the
claims; `max_time`, `start_time` and `nodes_searched` are threaded through the
search functions separately). -/
structure EngineState (B : Type) where
  board : BoardObj B
  move_history : List Move
  redo_stack : List Move
  ai_color : Option Color
deriving DecidableEq

/-- `ChessEngine.make_move`; returns the new state and the reported Bool. -/
def make_move {B : Type} (R : Rules B) (st : EngineState B) (move_uci : String) :
    EngineState B × Bool :=
  match Move.fromUci move_uci with
  | none => (st, false)
  | some move =>
    if move ∈ R.legalMoves st.board.pos then
      ({ st with
          board := ⟨R.push st.board.pos move, st.board.pos :: st.board.stack⟩,
          move_history := st.move_history ++ [move],
          redo_stack := [] }, true)
    else (st, false)

/-- `ChessEngine.undo_move`.  The engine only calls `board.pop()` when
`move_history` is non-empty; on a state whose board stack is nevertheless
empty the Python call would raise, which we model by leaving the board
unchanged (no claim touches that unreachable combination). -/
def undo_move {B : Type} (R : Rules B) (st : EngineState B) :
    EngineState B × Option String :=
  match st.move_history.getLast? with
  | none => (st, none)
  | some move =>
    let board :=
      match st.board.stack with
      | [] => st.board
      | prev :: rest => BoardObj.mk prev rest
    ({ st with
        board := board,
        move_history := st.move_history.dropLast,
        redo_stack := st.redo_stack ++ [move] }, some (Move.uci move))

/-- `ChessEngine.redo_move`: pop the most recently undone move (the last
element of `redo_stack`), push it on the board and append it to the played
history. -/
def redo_move {B : Type} (R : Rules B) (st : EngineState B) :
    EngineState B × Option String :=
  match st.redo_stack.getLast? with
  | none => (st, none)
  | some move =>
    ({ st with
        board := ⟨R.push st.board.pos move, st.board.pos :: st.board.stack⟩,
        move_history := st.move_history ++ [move],
        redo_stack := st.redo_stack.dropLast }, some (Move.uci move))

/-- Replay a move list from the collaborator's start position (the board a
session is created or reset with). -/
def replayBoard {B : Type} (R : Rules B) (moves : List Move) : B :=
  moves.foldl (fun b m => R.push b m) R.start

/-- `ChessEngine.get_best_move_for_fen`: validate the FEN, remember the
session's board and both history stacks, install a scratch board
(`chess.Board(fen)`, a fresh object with an empty move stack), run the
selector, and restore the remembered fields in the `finally` block. -/
def get_best_move_for_fen {B : Type} (R : Rules B) (timeo : Nat → Bool)
    (st : EngineState B) (fen : String)
    (bookIdx : Nat) (themCoin : Bool) (themIdx : Nat) (fallbackIdx : Nat)
    (depth : Nat) : Option String × EngineState B :=
  match R.parseFen fen with
  | none => (none, st)
  | some pos =>
    let original_board := st.board
    let original_history := st.move_history
    let original_redo := st.redo_stack
    let st1 : EngineState B := { st with board := ⟨pos, []⟩ }
    let result := get_best_move_uci R timeo st1.board.pos st1.move_history
        st1.ai_color bookIdx themCoin themIdx fallbackIdx depth
    (result,
      { st1 with
          board := original_board,
          move_history := original_history,
          redo_stack := original_redo })

/-- Modelled from the spec (section 8, "Alpha-beta equivalence", and section
4.2, "it must never change search correctness"): the unpruned full minimax
over the same position to the same depth, scoring horizon leaves by the same
quiescence evaluation but with the search window fully open and applying no
alpha-beta cutoffs anywhere. -/
def unprunedMinimax {B : Type} (R : Rules B) :
    Nat → B → Bool → Score
  | 0, b, _ =>
    let s := (quiescence R 5 b Score.negInf Score.posInf 0).1
    if R.turn b = Color.white then s else Score.neg s
  | depth + 1, b, maximizing =>
    if R.isGameOver b then
      let s := (quiescence R 5 b Score.negInf Score.posInf 0).1
      if R.turn b = Color.white then s else Score.neg s
    else
      let children := (R.legalMoves b).map
        (fun m => unprunedMinimax R depth (R.push b m) (!maximizing))
      if maximizing then children.foldl Score.smax Score.negInf
      else children.foldl Score.smin Score.posInf

/-! ### Spec-side predicates used to state the claims -/

/-- The endgame detector as worded by the claim and the design document:
"queens-off-board, or both sides have ≤ 2 minor pieces with queens present".
Compare with the implemented `is_endgame`. -/
def is_endgame_claim {B : Type} (R : Rules B) (b : B) : Prop :=
  let queens := R.piecesCount b PieceType.queen Color.white +
                R.piecesCount b PieceType.queen Color.black
  queens = 0 ∨
    (0 < queens ∧
      R.piecesCount b PieceType.knight Color.white +
        R.piecesCount b PieceType.bishop Color.white ≤ 2 ∧
      R.piecesCount b PieceType.knight Color.black +
        R.piecesCount b PieceType.bishop Color.black ≤ 2)

instance {B : Type} (R : Rules B) (b : B) : Decidable (is_endgame_claim R b) := by
  unfold is_endgame_claim; infer_instance

/-- `b'` is the mirror-color-swapped counterpart of `b` (`chess.Board.mirror`:
board flipped vertically, colors swapped, side to move swapped), expressed
through the collaborator queries the evaluator reads: piece placement is
rank-flipped and color-swapped (`s ^^^ 56` flips the rank bits of a square),
the turn is swapped, each color's legal-move count and king square correspond
to the other color's, and the turn-relative status flags coincide. -/
def MirrorPair {B : Type} (R : Rules B) (b b' : B) : Prop :=
  (∀ s : Fin 64, R.pieceAt b' s.val = (R.pieceAt b (s.val ^^^ 56)).map Piece.swap) ∧
  R.turn b' = (R.turn b).swap ∧
  (∀ c : Color, (R.legalMovesFor b' c).length = (R.legalMovesFor b c.swap).length) ∧
  R.isCheck b' = R.isCheck b ∧
  R.isCheckmate b' = R.isCheckmate b ∧
  R.isStalemate b' = R.isStalemate b ∧
  R.isInsufficientMaterial b' = R.isInsufficientMaterial b ∧
  (∀ c : Color, R.kingSq b' c = (R.kingSq b c.swap).map (fun s => s ^^^ 56)) ∧
  (∀ t : PieceType, ∀ c : Color, R.piecesCount b' t c = R.piecesCount b t c.swap)

instance {B : Type} (R : Rules B) (b b' : B) : Decidable (MirrorPair R b b') := by
  unfold MirrorPair; infer_instance

/-- Two positions that are indistinguishable through every collaborator query
the evaluator performs: same piece placement, same side to move, same legal
moves for either forced turn, same status flags, same king squares and piece
counts.  This is what "identical position content" means to `evaluate`; any
other state (such as the move history that reached the position, or a random
seed) is invisible to it. -/
def ObsEq {B : Type} (R : Rules B) (b b' : B) : Prop :=
  (∀ s : Fin 64, R.pieceAt b s.val = R.pieceAt b' s.val) ∧
  R.turn b = R.turn b' ∧
  (∀ c : Color, R.legalMovesFor b c = R.legalMovesFor b' c) ∧
  R.isCheck b = R.isCheck b' ∧
  R.isCheckmate b = R.isCheckmate b' ∧
  R.isStalemate b = R.isStalemate b' ∧
  R.isInsufficientMaterial b = R.isInsufficientMaterial b' ∧
  (∀ c : Color, R.kingSq b c = R.kingSq b' c) ∧
  (∀ t : PieceType, ∀ c : Color, R.piecesCount b t c = R.piecesCount b' t c)

instance {B : Type} (R : Rules B) (b b' : B) : Decidable (ObsEq R b b') := by
  unfold ObsEq; infer_instance

/-! ### A concrete finite collaborator instance

Explicit game trees, used to run the embedded engine on concrete inputs: each
node carries a piece placement, the side to move, the legal moves of the side
to move with their successor positions, the legal moves of the other side
(reached by the evaluator's in-place turn flip), which moves are captures, and
the status flags.  All derivable queries (`pieceAt`, `kingSq`,
`piecesCount`) are computed from the placement exactly as the `chess`
library derives them from its bitboards, and a position with no legal move
for the side to move is game over, as in chess. -/

inductive GTree where
  | node (placement : List (Nat × Piece)) (turnC : Color)
      (myMoves : List (Move × GTree)) (oppMoves : List Move) (caps : List Move)
      (checkF : Bool) (mateF : Bool) (staleF : Bool) (insuffF : Bool)
      (overF : Bool) : GTree

/-- Piece placement of the root node. -/
def GTree.placement : GTree → List (Nat × Piece)
  | GTree.node pl _ _ _ _ _ _ _ _ _ => pl

/-- Side to move. -/
def GTree.turnC : GTree → Color
  | GTree.node _ t _ _ _ _ _ _ _ _ => t

/-- Legal moves of the side to move, with successor positions. -/
def GTree.myMoves : GTree → List (Move × GTree)
  | GTree.node _ _ ms _ _ _ _ _ _ _ => ms

/-- Legal moves of the opposite side (turn forced). -/
def GTree.oppMoves : GTree → List Move
  | GTree.node _ _ _ os _ _ _ _ _ _ => os

/-- Capture moves. -/
def GTree.caps : GTree → List Move
  | GTree.node _ _ _ _ cs _ _ _ _ _ => cs

/-- Check flag. -/
def GTree.checkF : GTree → Bool
  | GTree.node _ _ _ _ _ c _ _ _ _ => c

/-- Checkmate flag. -/
def GTree.mateF : GTree → Bool
  | GTree.node _ _ _ _ _ _ m _ _ _ => m

/-- Stalemate flag. -/
def GTree.staleF : GTree → Bool
  | GTree.node _ _ _ _ _ _ _ s _ _ => s

/-- Insufficient-material flag. -/
def GTree.insuffF : GTree → Bool
  | GTree.node _ _ _ _ _ _ _ _ i _ => i

/-- Extra game-over flag (draw rules beyond the structural no-move case). -/
def GTree.overF : GTree → Bool
  | GTree.node _ _ _ _ _ _ _ _ _ o => o

/-- The collaborator instance on explicit game trees. -/
def TR : Rules GTree where
  pieceAt b s := ((b.placement.find? (fun e => decide (e.1 = s))).map (fun e => e.2))
  turn b := b.turnC
  legalMovesFor b c :=
    if c = b.turnC then b.myMoves.map (fun e => e.1) else b.oppMoves
  push b m := (((b.myMoves.find? (fun e => decide (e.1 = m))).map (fun e => e.2)).getD b)
  isCheck b := b.checkF
  isCheckmate b := b.mateF
  isStalemate b := b.staleF
  isInsufficientMaterial b := b.insuffF
  isGameOver b := b.mateF || b.staleF || b.insuffF || b.overF || b.myMoves.isEmpty
  isCapture b m := b.caps.contains m
  kingSq b c :=
    ((b.placement.find? (fun e => decide (e.2 = Piece.mk PieceType.king c))).map
      (fun e => e.1))
  piecesCount b t c := (b.placement.filter (fun e => decide (e.2 = Piece.mk t c))).length
  parseFen _ := none
  start := GTree.node [] Color.white [] [] [] false false false false true

/-- In the `TR` world a position with no legal move for the side to move is
game over — the chess fact (checkmate or stalemate) the fallback branch of
`get_best_move` relies on. -/
theorem TR_no_moves_game_over :
    ∀ b : GTree, TR.legalMovesFor b (TR.turn b) = [] → TR.isGameOver b = true := by
  intro b h
  have h' : b.myMoves.map (fun e => e.1) = [] := by
    simpa [TR, Rules.legalMovesFor] using h
  have he : b.myMoves.isEmpty = true := by
    cases hm : b.myMoves with
    | nil => rfl
    | cons x xs => rw [hm] at h'; simp at h'
  simp [TR, he]

/-- The same collaborator where positions additionally carry an opaque history
tag (modelling that a `chess.Board` also remembers the moves that reached the
position): every query ignores the tag. -/
def TRH : Rules (GTree × Nat) where
  pieceAt b s := TR.pieceAt b.1 s
  turn b := TR.turn b.1
  legalMovesFor b c := TR.legalMovesFor b.1 c
  push b m := (TR.push b.1 m, b.2 + 1)
  isCheck b := TR.isCheck b.1
  isCheckmate b := TR.isCheckmate b.1
  isStalemate b := TR.isStalemate b.1
  isInsufficientMaterial b := TR.isInsufficientMaterial b.1
  isGameOver b := TR.isGameOver b.1
  isCapture b m := TR.isCapture b.1 m
  kingSq b c := TR.kingSq b.1 c
  piecesCount b t c := TR.piecesCount b.1 t c
  parseFen s := (TR.parseFen s).map (fun g => (g, 0))
  start := (TR.start, 0)

/-! ### Concrete positions used for witnesses and counterexamples -/

/-- Null-like dummy move (a1 to a1). -/
def mv0 : Move := ⟨0, 0, none⟩

/-- Dummy move b1 to a1. -/
def mvA : Move := ⟨1, 0, none⟩

/-- Dummy move c1 to a1. -/
def mvB : Move := ⟨2, 0, none⟩

/-- A terminal placeholder position. -/
def dummyLeaf : GTree :=
  GTree.node [] Color.white [] [] [] false false false false true

/-- Kings on e1 and e8. -/
def kingsOnly : List (Nat × Piece) :=
  [(4, Piece.mk PieceType.king Color.white), (60, Piece.mk PieceType.king Color.black)]

/-- White queen on a4 (square 24) plus kings, White to move.  Square 24 maps
to `QUEEN_TABLE[39] = -5` for White, while its rank-mirror square 32 maps to
`QUEEN_TABLE[32] = 0` for Black: the queen table is not left-right
symmetric. -/
def pQ : GTree :=
  GTree.node ((24, Piece.mk PieceType.queen Color.white) :: kingsOnly) Color.white
    [(mv0, dummyLeaf)] [mv0] [] false false false false false

/-- The mirror-color-swapped counterpart of `pQ`: black queen on a5
(square 32) plus kings, Black to move. -/
def pQm : GTree :=
  GTree.node ((32, Piece.mk PieceType.queen Color.black) :: kingsOnly) Color.black
    [(mv0, dummyLeaf)] [mv0] [] false false false false false

/-- A queen-less mirror pair: white pawn on b2 plus kings, White to move. -/
def pP : GTree :=
  GTree.node ((9, Piece.mk PieceType.pawn Color.white) :: kingsOnly) Color.white
    [(mv0, dummyLeaf)] [mv0] [] false false false false false

/-- The mirror-color-swapped counterpart of `pP`: black pawn on b7. -/
def pPm : GTree :=
  GTree.node ((49, Piece.mk PieceType.pawn Color.black) :: kingsOnly) Color.black
    [(mv0, dummyLeaf)] [mv0] [] false false false false false

/-- Horizon leaf for the search counterexample: kings only, Black to move, no
legal reply for Black, `n` legal moves for White, so the evaluation is
`5 * n` from White's perspective. -/
def leafE (n : Nat) : GTree :=
  GTree.node kingsOnly Color.black []
    ((List.range n).map (fun i => Move.mk i 0 none)) [] false false false false false

/-- Interior White-to-move node with two replies. -/
def wNode (l r : GTree) : GTree :=
  GTree.node kingsOnly Color.white [(mvA, l), (mvB, r)] [] [] false false false false false

/-- Root of the search counterexample: Black to move, two replies leading to
White-to-move nodes whose leaf evaluations (White's perspective) are
`10, 20` and `15, 5`. -/
def rootC2 : GTree :=
  GTree.node kingsOnly Color.black
    [(mvA, wNode (leafE 2) (leafE 4)), (mvB, wNode (leafE 3) (leafE 1))]
    [] [] false false false false false

/-- A stalemate leaf (kings only, Black to move, no legal move, not in
check). -/
def staleLeaf : GTree :=
  GTree.node kingsOnly Color.black [] [] [] false false true true false

/-- A one-move position: White to move, the single legal move leads to the
stalemate leaf. -/
def rootC1 : GTree :=
  GTree.node kingsOnly Color.white [(mv0, staleLeaf)] [] [] false false false false false

/-- Checkmate, White to move (flag board). -/
def bMateW : GTree :=
  GTree.node kingsOnly Color.white [] [] [] true true false false false

/-- Checkmate, Black to move (flag board). -/
def bMateB : GTree :=
  GTree.node kingsOnly Color.black [] [] [] true true false false false

/-- Stalemate with bare kings (also insufficient material), White to move. -/
def bStale : GTree :=
  GTree.node kingsOnly Color.white [] [] [] false false true true false

/-- A fresh session state on the `rootC1` position. -/
def stC6 : EngineState GTree := ⟨⟨rootC1, []⟩, [], [], none⟩

/-- A session state on `rootC1` with a pending redo entry. -/
def stC7 : EngineState GTree := ⟨⟨rootC1, []⟩, [], [mvA], none⟩

/-- A session state at the start position with one undone move pending. -/
def stRedo : EngineState GTree := ⟨⟨TR.start, []⟩, [], [mv0], none⟩

/-! ### Order facts about `Score` -/

theorem Score.ble_refl (a : Score) : Score.ble a a = true := by
  cases a <;> simp [Score.ble]

theorem Score.ble_trans {a b c : Score} (h1 : Score.ble a b = true)
    (h2 : Score.ble b c = true) : Score.ble a c = true := by
  cases a <;> cases b <;> cases c <;> simp_all [Score.ble] <;> omega

theorem Score.ble_of_not_ble {a b : Score} (h : Score.ble a b = false) :
    Score.ble b a = true := by
  cases a <;> cases b <;> simp_all [Score.ble] <;> omega

theorem Score.ble_of_blt {a b : Score} (h : Score.blt a b = true) :
    Score.ble a b = true := by
  unfold Score.blt at h
  exact Score.ble_of_not_ble (by simpa using h)

theorem Score.neg_neg (a : Score) : Score.neg (Score.neg a) = a := by
  cases a <;> simp [Score.neg]

theorem Score.ble_neg {a b : Score} (h : Score.ble a b = true) :
    Score.ble (Score.neg b) (Score.neg a) = true := by
  cases a <;> cases b <;> simp_all [Score.ble, Score.neg]

/-! ### Claim theorems -/

/-- The capture loop of `quiescence` stays inside `[alpha, beta]` whenever the
recursive call it is handed does. -/
theorem qLoop_bounds {B : Type} (R : Rules B)
    (q : B → Score → Score → Nat → Score × Nat)
    (hq : ∀ b a c n, Score.ble a c = true →
      Score.ble a (q b a c n).1 = true ∧ Score.ble (q b a c n).1 c = true) :
    ∀ (ms : List Move) (b : B) (a c : Score) (n : Nat),
      Score.ble a c = true →
      Score.ble a (qLoop R q ms b a c n).1 = true ∧
        Score.ble (qLoop R q ms b a c n).1 c = true := by
  intro ms
  induction ms with
  | nil =>
    intro b a c n h
    exact ⟨Score.ble_refl a, h⟩
  | cons m rest ih =>
    intro b a c n h
    by_cases hcap : R.isCapture b m
    · have hwin : Score.ble (Score.neg c) (Score.neg a) = true := Score.ble_neg h
      obtain ⟨h1, h2⟩ := hq (R.push b m) (Score.neg c) (Score.neg a) n hwin
      have ha : Score.ble a
          (Score.neg (q (R.push b m) (Score.neg c) (Score.neg a) n).1) = true := by
        have := Score.ble_neg h2
        rwa [Score.neg_neg] at this
      have hb : Score.ble
          (Score.neg (q (R.push b m) (Score.neg c) (Score.neg a) n).1) c = true := by
        have := Score.ble_neg h1
        rwa [Score.neg_neg] at this
      simp only [qLoop, hcap, Bool.not_true, Bool.false_eq_true, if_false]
      by_cases hcut : Score.ble c
          (Score.neg (q (R.push b m) (Score.neg c) (Score.neg a) n).1) = true
      · simp only [hcut, if_true]
        exact ⟨h, Score.ble_refl c⟩
      · rw [Bool.not_eq_true] at hcut
        simp only [hcut, Bool.false_eq_true, if_false]
        by_cases hraise : Score.blt a
            (Score.neg (q (R.push b m) (Score.neg c) (Score.neg a) n).1) = true
        · simp only [hraise, if_true]
          obtain ⟨r1, r2⟩ := ih b
            (Score.neg (q (R.push b m) (Score.neg c) (Score.neg a) n).1) c
            ((q (R.push b m) (Score.neg c) (Score.neg a) n).2) hb
          exact ⟨Score.ble_trans (Score.ble_of_blt hraise) r1, r2⟩
        · rw [Bool.not_eq_true] at hraise
          simp only [hraise, Bool.false_eq_true, if_false]
          exact ih b a c ((q (R.push b m) (Score.neg c) (Score.neg a) n).2) h
    · rw [Bool.not_eq_true] at hcap
      simp only [qLoop, hcap, Bool.not_false, if_true]
      exact ih b a c n h

/-- C10: the quiescence search is fail-hard: whenever it is called with real
bounds `alpha ≤ beta` (at any extra depth from the horizon down to the depth
guard, and any node-counter value), the score it returns lies in the closed
interval `[alpha, beta]`. -/
theorem c10_quiescence_fail_hard {B : Type} (R : Rules B) :
    ∀ (fuel : Nat) (b : B) (alpha beta : Score) (nodes : Nat),
      Score.ble alpha beta = true →
      Score.ble alpha (quiescence R fuel b alpha beta nodes).1 = true ∧
        Score.ble (quiescence R fuel b alpha beta nodes).1 beta = true := by
  intro fuel
  induction fuel with
  | zero =>
    intro b a c n h
    simp only [quiescence]
    by_cases hcut : Score.ble c (Score.int (if R.turn b = Color.black then
        -(evaluate R b) else evaluate R b)) = true
    · simp only [hcut, if_true]
      exact ⟨h, Score.ble_refl c⟩
    · rw [Bool.not_eq_true] at hcut
      simp only [hcut, Bool.false_eq_true, if_false]
      by_cases hraise : Score.blt a (Score.int (if R.turn b = Color.black then
          -(evaluate R b) else evaluate R b)) = true
      · simp only [hraise, if_true]
        exact ⟨Score.ble_of_blt hraise, Score.ble_of_not_ble hcut⟩
      · rw [Bool.not_eq_true] at hraise
        simp only [hraise, Bool.false_eq_true, if_false]
        exact ⟨Score.ble_refl a, h⟩
  | succ fuel ih =>
    intro b a c n h
    simp only [quiescence]
    by_cases hcut : Score.ble c (Score.int (if R.turn b = Color.black then
        -(evaluate R b) else evaluate R b)) = true
    · simp only [hcut, if_true]
      exact ⟨h, Score.ble_refl c⟩
    · rw [Bool.not_eq_true] at hcut
      simp only [hcut, Bool.false_eq_true, if_false]
      have hloop := qLoop_bounds R (quiescence R fuel) (fun b a c n h => ih b a c n h)
      by_cases hraise : Score.blt a (Score.int (if R.turn b = Color.black then
          -(evaluate R b) else evaluate R b)) = true
      · simp only [hraise, if_true]
        obtain ⟨r1, r2⟩ := hloop (R.legalMoves b) b
          (Score.int (if R.turn b = Color.black then -(evaluate R b) else evaluate R b))
          c (n + 1) (Score.ble_of_not_ble hcut)
        exact ⟨Score.ble_trans (Score.ble_of_blt hraise) r1, r2⟩
      · rw [Bool.not_eq_true] at hraise
        simp only [hraise, Bool.false_eq_true, if_false]
        exact hloop (R.legalMoves b) b a c (n + 1) h

/-- The endgame detector only reads piece counts. -/
theorem is_endgame_congr {B : Type} (R : Rules B) {b b' : B}
    (hpc : ∀ t : PieceType, ∀ c : Color,
      R.piecesCount b t c = R.piecesCount b' t c) :
    is_endgame R b = is_endgame R b' := by
  unfold is_endgame
  simp only [hpc]

/-- The per-square evaluation term only reads the piece on the square and the
piece counts (through the endgame detector). -/
theorem pieceTerm_congr {B : Type} (R : Rules B) {b b' : B}
    (hp : ∀ s : Fin 64, R.pieceAt b s.val = R.pieceAt b' s.val)
    (hpc : ∀ t : PieceType, ∀ c : Color,
      R.piecesCount b t c = R.piecesCount b' t c)
    (s : Fin 64) : pieceTerm R b s.val = pieceTerm R b' s.val := by
  unfold pieceTerm get_piece_square_value
  rw [hp s, is_endgame_congr R hpc]

/-- The mobility term only reads the two forced-turn legal-move lists. -/
theorem evaluate_mobility_congr {B : Type} (R : Rules B) {b b' : B}
    (hl : ∀ c : Color, R.legalMovesFor b c = R.legalMovesFor b' c) :
    evaluate_mobility R b = evaluate_mobility R b' := by
  unfold evaluate_mobility
  rw [hl Color.white, hl Color.black]

/-- One shield-loop step only reads the piece placement. -/
theorem shieldStep_congr {B : Type} (R : Rules B) {b b' : B}
    (hp : ∀ s : Fin 64, R.pieceAt b s.val = R.pieceAt b' s.val)
    (c : Color) (kf kr acc off : Int) :
    shieldStep R b c kf kr acc off = shieldStep R b' c kf kr acc off := by
  unfold shieldStep
  by_cases hin : 0 ≤ kf + off ∧ kf + off ≤ 7 ∧
      0 ≤ kr + (if c = Color.white then (1 : Int) else -1) ∧
      kr + (if c = Color.white then (1 : Int) else -1) ≤ 7
  · rw [if_pos hin, if_pos hin]
    have hsq : ((kr + (if c = Color.white then (1 : Int) else -1)) * 8 +
        (kf + off)).toNat < 64 := by
      obtain ⟨h1, h2, h3, h4⟩ := hin
      omega
    rw [hp ⟨((kr + (if c = Color.white then (1 : Int) else -1)) * 8 +
        (kf + off)).toNat, hsq⟩]
  · rw [if_neg hin, if_neg hin]

/-- The pawn-shield term only reads the king square and the piece placement. -/
theorem shieldBonus_congr {B : Type} (R : Rules B) {b b' : B}
    (hp : ∀ s : Fin 64, R.pieceAt b s.val = R.pieceAt b' s.val)
    (hk : ∀ c : Color, R.kingSq b c = R.kingSq b' c)
    (c : Color) : shieldBonus R b c = shieldBonus R b' c := by
  unfold shieldBonus
  rw [hk c]
  cases hkc : R.kingSq b' c with
  | none => rfl
  | some k =>
    apply List.foldl_ext
    intro acc off _
    exact shieldStep_congr R hp c _ _ acc off

/-- C9: `evaluate` is a pure, deterministic function of the position content:
any two positions that answer every collaborator query the evaluator performs
identically — same piece placement, side to move, forced-turn legal moves,
status flags, king squares and piece counts — receive the same score,
regardless of any other state they carry (such as the move history that
reached them).  In particular two calls on an unmodified position return
identical values. -/
theorem c9_evaluate_deterministic {B : Type} (R : Rules B) (b b' : B)
    (h : ObsEq R b b') : evaluate R b = evaluate R b' := by
  obtain ⟨hp, ht, hl, hc, hcm, hst, hins, hk, hpc⟩ := h
  have hmat : (List.range 64).map (fun s => pieceTerm R b s) =
      (List.range 64).map (fun s => pieceTerm R b' s) :=
    List.map_congr_left (fun s hs =>
      pieceTerm_congr R hp hpc ⟨s, List.mem_range.mp hs⟩)
  have hks : evaluate_king_safety R b = evaluate_king_safety R b' := by
    unfold evaluate_king_safety
    rw [shieldBonus_congr R hp hk Color.white, shieldBonus_congr R hp hk Color.black]
  unfold evaluate
  rw [hcm, hst, hins, ht, hc, hmat, evaluate_mobility_congr R hl,
    is_endgame_congr R hpc, hks]

/-- Witness for C9: the same position content carried by two board values
with different history tags receives the same score. -/
theorem c9_evaluate_deterministic_witness :
    evaluate TRH (pQ, 0) = evaluate TRH (pQ, 7) :=
  c9_evaluate_deterministic TRH (pQ, 0) (pQ, 7)
    ⟨fun _ => rfl, rfl, fun _ => rfl, rfl, rfl, rfl, rfl, fun _ => rfl,
     fun _ _ => rfl⟩

/-! ### Mirror symmetry machinery for C3

`s ^^^ 56` flips the rank of a square, `s ^^^ 7` flips its file, and
`63 - s` rotates the board by 180 degrees; `63 - s = (s ^^^ 56) ^^^ 7`.
The evaluator looks a White piece on square `s` up at table index `63 - s`
(a 180-degree rotation) while the mirror places the color-swapped piece on
`s ^^^ 56` (a rank flip), so the two table entries coincide exactly when the
table is left-right symmetric.  Every piece-square table of the engine is
left-right symmetric except `QUEEN_TABLE`. -/

theorem xor56_lt (s : Fin 64) : s.val ^^^ 56 < 64 := by revert s; decide

theorem xor56_xor56 (s : Nat) : (s ^^^ 56) ^^^ 56 = s := Nat.xor_cancel_right 56 s

theorem sub63_eq_xor (s : Fin 64) : 63 - (s.val ^^^ 56) = s.val ^^^ 7 := by
  revert s; decide

theorem sub63_eq_xor' (s : Fin 64) : 63 - s.val = (s.val ^^^ 56) ^^^ 7 := by
  revert s; decide

theorem xor56_file (s : Fin 64) : (s.val ^^^ 56) % 8 = s.val % 8 := by
  revert s; decide

theorem xor56_rank (s : Fin 64) : (s.val ^^^ 56) / 8 = 7 - s.val / 8 := by
  revert s; decide

theorem xor56_mk (r f : Fin 8) :
    (r.val * 8 + f.val) ^^^ 56 = (7 - r.val) * 8 + f.val := by revert r f; decide

/-- Left-right symmetry of every non-queen piece-square table. -/
theorem pieceTable_symm (t : PieceType) (hne : t ≠ PieceType.queen) (e : Bool) :
    ∀ i : Fin 64, (pieceTable e t).getD (i.val ^^^ 7) 0 = (pieceTable e t).getD i.val 0 := by
  cases t with
  | queen => exact absurd rfl hne
  | pawn => cases e <;> decide
  | knight => cases e <;> decide
  | bishop => cases e <;> decide
  | rook => cases e <;> decide
  | king => cases e <;> decide

/-- Negating inside a mapped sum. -/
theorem sum_map_neg {α : Type} (l : List α) (f : α → Int) :
    (l.map (fun x => -(f x))).sum = -((l.map f).sum) := by
  induction l with
  | nil => simp
  | cons x xs ih => simp [ih]; ring

/-- Rank-flipping permutes the square indices. -/
theorem range64_xor56_perm :
    ((List.range 64).map (fun s => s ^^^ 56)).Perm (List.range 64) := by
  decide

/-- Reindexing a square sum by the rank flip. -/
theorem sum_over_xor56 (f : Nat → Int) :
    ((List.range 64).map (fun s => f (s ^^^ 56))).sum = ((List.range 64).map f).sum := by
  have h1 : (List.range 64).map (fun s => f (s ^^^ 56)) =
      (((List.range 64).map (fun s => s ^^^ 56)).map f) := by
    rw [List.map_map]; rfl
  rw [h1]
  exact List.Perm.sum_eq (List.Perm.map f range64_xor56_perm)

theorem Color.swap_eq_white {c : Color} : c.swap = Color.white ↔ c = Color.black := by
  cases c <;> simp [Color.swap]

theorem Color.swap_eq_black {c : Color} : c.swap = Color.black ↔ c = Color.white := by
  cases c <;> simp [Color.swap]

/-- Mirroring swaps the colors in each piece count, so the color-summed
queen and minor counts — and with them the endgame detector — are unchanged. -/
theorem is_endgame_mirror {B : Type} (R : Rules B) {b b' : B}
    (hpc : ∀ t : PieceType, ∀ c : Color,
      R.piecesCount b' t c = R.piecesCount b t c.swap) :
    is_endgame R b' = is_endgame R b := by
  unfold is_endgame
  simp only [hpc, Color.swap]
  have hq : R.piecesCount b PieceType.queen Color.black +
      R.piecesCount b PieceType.queen Color.white =
      R.piecesCount b PieceType.queen Color.white +
      R.piecesCount b PieceType.queen Color.black := by omega
  have hmin : R.piecesCount b PieceType.knight Color.black +
      R.piecesCount b PieceType.bishop Color.black +
      R.piecesCount b PieceType.knight Color.white +
      R.piecesCount b PieceType.bishop Color.white =
      R.piecesCount b PieceType.knight Color.white +
      R.piecesCount b PieceType.bishop Color.white +
      R.piecesCount b PieceType.knight Color.black +
      R.piecesCount b PieceType.bishop Color.black := by omega
  rw [hq, hmin]

/-- On a queen-free board, the per-square evaluation term of the mirror
position at square `s` is the negation of the term of the original position
at the rank-flipped square: every piece-square table in play is left-right
symmetric, which exactly compensates the `63 - square` (180-degree) indexing
used for White against the `square` indexing used for Black. -/
theorem pieceTerm_mirror {B : Type} (R : Rules B) {b b' : B}
    (hp : ∀ s : Fin 64, R.pieceAt b' s.val = (R.pieceAt b (s.val ^^^ 56)).map Piece.swap)
    (hend : is_endgame R b' = is_endgame R b)
    (hnq : ∀ s : Fin 64, ∀ p, R.pieceAt b s.val = some p →
      p.pieceType ≠ PieceType.queen)
    (s : Fin 64) :
    pieceTerm R b' s.val = -(pieceTerm R b (s.val ^^^ 56)) := by
  unfold pieceTerm get_piece_square_value
  rw [hp s, hend]
  cases hq : R.pieceAt b (s.val ^^^ 56) with
  | none => simp
  | some p =>
    have hType : p.pieceType ≠ PieceType.queen :=
      hnq ⟨s.val ^^^ 56, xor56_lt s⟩ p hq
    rw [Option.map_some']
    have hsymm := pieceTable_symm p.pieceType hType (is_endgame R b)
    cases hc : p.color with
    | white =>
      simp only [Piece.swap, hc, Color.swap]
      have h1 : (pieceTable (is_endgame R b) p.pieceType).getD (63 - (s.val ^^^ 56)) 0 =
          (pieceTable (is_endgame R b) p.pieceType).getD s.val 0 := by
        rw [sub63_eq_xor s]; exact hsymm s
      simp
      rw [← List.getD_eq_getElem?_getD, ← List.getD_eq_getElem?_getD, h1]
    | black =>
      simp only [Piece.swap, hc, Color.swap]
      have h1 : (pieceTable (is_endgame R b) p.pieceType).getD (63 - s.val) 0 =
          (pieceTable (is_endgame R b) p.pieceType).getD (s.val ^^^ 56) 0 := by
        rw [sub63_eq_xor' s]; exact hsymm ⟨s.val ^^^ 56, xor56_lt s⟩
      simp
      rw [← List.getD_eq_getElem?_getD, ← List.getD_eq_getElem?_getD, h1]

/-- One shield-loop step of the mirror position (king rank complemented,
shield color `c`) equals the corresponding step of the original position for
the swapped color: the pawn direction flips together with the rank
complement, and the probed shield square is the rank flip of the original
probed square. -/
theorem shieldStep_mirror {B : Type} (R : Rules B) {b b' : B}
    (hp : ∀ s : Fin 64, R.pieceAt b' s.val = (R.pieceAt b (s.val ^^^ 56)).map Piece.swap)
    (c : Color) (kf : Int) (kr : Nat) (hkr : kr ≤ 7) (acc off : Int) :
    shieldStep R b' c kf (7 - (kr : Int)) acc off =
      shieldStep R b c.swap kf (kr : Int) acc off := by
  have key : ∀ (dL dR : Int), dR = -dL → (dL = 1 ∨ dL = -1) →
      ∀ (cL cR : Color), (∀ p : Piece, (p.pieceType = PieceType.pawn ∧
          p.color.swap = cL) ↔ (p.pieceType = PieceType.pawn ∧ p.color = cR)) →
      (if 0 ≤ kf + off ∧ kf + off ≤ 7 ∧ 0 ≤ (7 - (kr : Int)) + dL ∧
          (7 - (kr : Int)) + dL ≤ 7 then
        match R.pieceAt b' (((7 - (kr : Int)) + dL) * 8 + (kf + off)).toNat with
        | some p =>
          if p.pieceType = PieceType.pawn ∧ p.color = cL then acc + 10 else acc
        | none => acc
      else acc) =
      (if 0 ≤ kf + off ∧ kf + off ≤ 7 ∧ 0 ≤ (kr : Int) + dR ∧
          (kr : Int) + dR ≤ 7 then
        match R.pieceAt b (((kr : Int) + dR) * 8 + (kf + off)).toNat with
        | some p =>
          if p.pieceType = PieceType.pawn ∧ p.color = cR then acc + 10 else acc
        | none => acc
      else acc) := by
    intro dL dR hdR hdL cL cR hcc
    by_cases hin : 0 ≤ kf + off ∧ kf + off ≤ 7 ∧ 0 ≤ (kr : Int) + dR ∧
        (kr : Int) + dR ≤ 7
    · have hinL : 0 ≤ kf + off ∧ kf + off ≤ 7 ∧ 0 ≤ (7 - (kr : Int)) + dL ∧
          (7 - (kr : Int)) + dL ≤ 7 := by
        obtain ⟨a1, a2, a3, a4⟩ := hin
        rcases hdL with h1 | h1 <;> (subst h1; subst hdR; omega)
      rw [if_pos hinL, if_pos hin]
      obtain ⟨a1, a2, a3, a4⟩ := hin
      set ff : Nat := (kf + off).toNat with hff
      set rr : Nat := ((kr : Int) + dR).toNat with hrr
      have hffv : kf + off = (ff : Int) := by omega
      have hrrv : (kr : Int) + dR = (rr : Int) := by omega
      have hff7 : ff ≤ 7 := by omega
      have hrr7 : rr ≤ 7 := by omega
      have hRform : (((kr : Int) + dR) * 8 + (kf + off)).toNat = rr * 8 + ff := by
        rw [hffv, hrrv]; omega
      have hLform : (((7 - (kr : Int)) + dL) * 8 + (kf + off)).toNat =
          (7 - rr) * 8 + ff := by
        rw [hffv]
        rcases hdL with h1 | h1 <;> (subst h1; subst hdR; omega)
      have hxor : (rr * 8 + ff) ^^^ 56 = (7 - rr) * 8 + ff :=
        xor56_mk ⟨rr, by omega⟩ ⟨ff, by omega⟩
      have hLlt : (7 - rr) * 8 + ff < 64 := by omega
      have hpe : R.pieceAt b' ((7 - rr) * 8 + ff) =
          (R.pieceAt b (rr * 8 + ff)).map Piece.swap := by
        have h0 := hp ⟨(7 - rr) * 8 + ff, hLlt⟩
        have h1 : ((7 - rr) * 8 + ff) ^^^ 56 = rr * 8 + ff := by
          rw [← hxor, xor56_xor56]
        rw [h1] at h0
        exact h0
      rw [hRform, hLform, hpe]
      cases R.pieceAt b (rr * 8 + ff) with
      | none => rfl
      | some p =>
        rw [Option.map_some']
        have hsw : (Piece.swap p).pieceType = p.pieceType := rfl
        have hswc : (Piece.swap p).color = p.color.swap := rfl
        have hgoal : ((Piece.swap p).pieceType = PieceType.pawn ∧
            (Piece.swap p).color = cL) ↔
            (p.pieceType = PieceType.pawn ∧ p.color = cR) := by
          rw [hsw, hswc]; exact hcc p
        show (if (Piece.swap p).pieceType = PieceType.pawn ∧
            (Piece.swap p).color = cL then acc + 10 else acc) =
          (if p.pieceType = PieceType.pawn ∧ p.color = cR then acc + 10 else acc)
        by_cases hpw : p.pieceType = PieceType.pawn ∧ p.color = cR
        · rw [if_pos (hgoal.mpr hpw), if_pos hpw]
        · rw [if_neg (fun hcon => hpw (hgoal.mp hcon)), if_neg hpw]
    · have hinLn : ¬(0 ≤ kf + off ∧ kf + off ≤ 7 ∧ 0 ≤ (7 - (kr : Int)) + dL ∧
          (7 - (kr : Int)) + dL ≤ 7) := by
        intro hcon
        apply hin
        obtain ⟨a1, a2, a3, a4⟩ := hcon
        rcases hdL with h1 | h1 <;> (subst h1; subst hdR; exact ⟨a1, a2, by omega, by omega⟩)
      rw [if_neg hinLn, if_neg hin]
  cases c with
  | white =>
    exact key 1 (-1) (by norm_num) (Or.inl rfl) Color.white (Color.swap Color.white)
      (fun p => and_congr_right fun _ => by
        rw [show Color.swap Color.white = Color.black from rfl]
        exact Color.swap_eq_white)
  | black =>
    exact key (-1) 1 (by norm_num) (Or.inr rfl) Color.black (Color.swap Color.black)
      (fun p => and_congr_right fun _ => by
        rw [show Color.swap Color.black = Color.white from rfl]
        exact Color.swap_eq_black)

/-- The pawn-shield bonus of one color on the mirror position equals the
bonus of the swapped color on the original. -/
theorem shieldBonus_mirror {B : Type} (R : Rules B) {b b' : B}
    (hp : ∀ s : Fin 64, R.pieceAt b' s.val = (R.pieceAt b (s.val ^^^ 56)).map Piece.swap)
    (hkg : ∀ c : Color, R.kingSq b' c = (R.kingSq b c.swap).map (fun s => s ^^^ 56))
    (hkl : ∀ c : Color, ∀ k : Nat, R.kingSq b c = some k → k < 64)
    (c : Color) : shieldBonus R b' c = shieldBonus R b c.swap := by
  unfold shieldBonus
  rw [hkg c]
  cases hkc : R.kingSq b c.swap with
  | none => rfl
  | some k =>
    have hk64 : k < 64 := hkl c.swap k hkc
    rw [Option.map_some']
    apply List.foldl_ext
    intro acc off _
    have hf : ((squareFile (k ^^^ 56) : Nat) : Int) = ((squareFile k : Nat) : Int) := by
      rw [show squareFile (k ^^^ 56) = squareFile k from xor56_file ⟨k, hk64⟩]
    have hr7 : squareRank k ≤ 7 := by
      unfold squareRank; omega
    have hrk : ((squareRank (k ^^^ 56) : Nat) : Int) =
        7 - ((squareRank k : Nat) : Int) := by
      rw [show squareRank (k ^^^ 56) = 7 - squareRank k from xor56_rank ⟨k, hk64⟩]
      omega
    rw [hf, hrk]
    exact shieldStep_mirror R hp c _ (squareRank k) hr7 acc off

/-- The king-safety term is antisymmetric under mirroring. -/
theorem evaluate_king_safety_mirror {B : Type} (R : Rules B) {b b' : B}
    (hp : ∀ s : Fin 64, R.pieceAt b' s.val = (R.pieceAt b (s.val ^^^ 56)).map Piece.swap)
    (hkg : ∀ c : Color, R.kingSq b' c = (R.kingSq b c.swap).map (fun s => s ^^^ 56))
    (hkl : ∀ c : Color, ∀ k : Nat, R.kingSq b c = some k → k < 64) :
    evaluate_king_safety R b' = -(evaluate_king_safety R b) := by
  unfold evaluate_king_safety
  rw [shieldBonus_mirror R hp hkg hkl Color.white,
    shieldBonus_mirror R hp hkg hkl Color.black,
    show Color.swap Color.white = Color.black from rfl,
    show Color.swap Color.black = Color.white from rfl]
  ring

/-- The mobility term is antisymmetric under mirroring. -/
theorem evaluate_mobility_mirror {B : Type} (R : Rules B) {b b' : B}
    (hlen : ∀ c : Color,
      (R.legalMovesFor b' c).length = (R.legalMovesFor b c.swap).length) :
    evaluate_mobility R b' = -(evaluate_mobility R b) := by
  unfold evaluate_mobility
  rw [hlen Color.white, hlen Color.black,
    show Color.swap Color.white = Color.black from rfl,
    show Color.swap Color.black = Color.white from rfl]
  ring

/-- On a queen-free board the material/positional sum is antisymmetric under
mirroring. -/
theorem material_mirror {B : Type} (R : Rules B) {b b' : B}
    (hp : ∀ s : Fin 64, R.pieceAt b' s.val = (R.pieceAt b (s.val ^^^ 56)).map Piece.swap)
    (hend : is_endgame R b' = is_endgame R b)
    (hnq : ∀ s : Fin 64, ∀ p, R.pieceAt b s.val = some p →
      p.pieceType ≠ PieceType.queen) :
    ((List.range 64).map (fun s => pieceTerm R b' s)).sum =
      -(((List.range 64).map (fun s => pieceTerm R b s)).sum) := by
  have h1 : (List.range 64).map (fun s => pieceTerm R b' s) =
      (List.range 64).map (fun s => -(pieceTerm R b (s ^^^ 56))) :=
    List.map_congr_left (fun s hs =>
      pieceTerm_mirror R hp hend hnq ⟨s, List.mem_range.mp hs⟩)
  rw [h1, sum_map_neg (List.range 64) (fun s => pieceTerm R b (s ^^^ 56))]
  exact congrArg Neg.neg (sum_over_xor56 (fun s => pieceTerm R b s))

/-- Full evaluation antisymmetry for queen-free mirror pairs. -/
theorem evaluate_mirror {B : Type} (R : Rules B) {b b' : B}
    (hm : MirrorPair R b b')
    (hnq : ∀ s : Fin 64, ∀ p, R.pieceAt b s.val = some p →
      p.pieceType ≠ PieceType.queen)
    (hkl : ∀ c : Color, ∀ k : Nat, R.kingSq b c = some k → k < 64) :
    evaluate R b = -(evaluate R b') := by
  obtain ⟨hp, ht, hlen, hchk, hcm, hst, hins, hkg, hpc⟩ := hm
  have hend : is_endgame R b' = is_endgame R b := is_endgame_mirror R hpc
  have main : evaluate R b' = -(evaluate R b) := by
    unfold evaluate
    rw [hcm, hst, hins, ht, hchk]
    by_cases h1 : R.isCheckmate b = true
    · rw [if_pos h1, if_pos h1]
      cases hturn : R.turn b <;> simp [Color.swap]
    · rw [if_neg h1, if_neg h1]
      by_cases h2 : (R.isStalemate b || R.isInsufficientMaterial b) = true
      · rw [if_pos h2, if_pos h2]
        norm_num
      · rw [if_neg h2, if_neg h2]
        rw [material_mirror R hp hend hnq, evaluate_mobility_mirror R hlen, hend,
          evaluate_king_safety_mirror R hp hkg hkl]
        cases he : is_endgame R b <;> cases hck : R.isCheck b <;>
          cases hturn : R.turn b <;> simp [Color.swap] <;> ring
  rw [main]
  ring

/-- C3 counterexample: `pQm` is the mirror-color-swapped counterpart of `pQ`
(white queen a4 and kings against black queen a5 and kings), yet
`evaluate` gives 895 and −900: the claimed antisymmetry fails by the queen
table's left-right asymmetry (`QUEEN_TABLE[39] = -5` against
`QUEEN_TABLE[32] = 0`), because White is indexed by `63 - square` (a
180-degree rotation) while Black is indexed by `square` (so the mirror is a
rank flip only). -/
theorem c3_mirror_antisymmetry_counterexample :
    MirrorPair TR pQ pQm ∧ evaluate TR pQ = 895 ∧ evaluate TR pQm = -900 ∧
      evaluate TR pQ ≠ -(evaluate TR pQm) := by
  refine ⟨by decide, by decide, by decide, by decide⟩

/-- C3 amended: for mirror-color-swapped counterparts with no queen on the
board (every other piece-square table is left-right symmetric, so the
180-degree White indexing agrees with the rank-flip mirror), the evaluation
is antisymmetric: `evaluate(P) = -evaluate(P')`.  The two side conditions
say the collaborator only reports queen-free pieces and in-range king
squares, as the `chess` library always does. -/
theorem c3_mirror_antisymmetry_no_queens {B : Type} (R : Rules B) (b b' : B)
    (hm : MirrorPair R b b')
    (hnq : ∀ s : Fin 64, (R.pieceAt b s.val).all
      (fun p => decide (p.pieceType ≠ PieceType.queen)) = true)
    (hkl : ∀ c : Color, (R.kingSq b c).getD 0 < 64) :
    evaluate R b = -(evaluate R b') :=
  evaluate_mirror R hm
    (fun s p h => by
      have hx := hnq s
      rw [h] at hx
      simpa using hx)
    (fun c k h => by
      have hx := hkl c
      rw [h] at hx
      simpa using hx)

/-- Witness for C3 (amended) on the queen-free mirror pair `pP`/`pPm`. -/
theorem c3_mirror_antisymmetry_no_queens_witness :
    evaluate TR pP = -(evaluate TR pPm) :=
  c3_mirror_antisymmetry_no_queens TR pP pPm (by decide) (by decide) (by decide)

/-! ### Search legality machinery for C1 -/

theorem insertDesc_perm {α : Type} (x : Int × α) (l : List (Int × α)) :
    (insertDesc x l).Perm (x :: l) := by
  induction l with
  | nil => exact List.Perm.refl _
  | cons y ys ih =>
    unfold insertDesc
    by_cases h : y.1 < x.1
    · rw [if_pos h]
    · rw [if_neg h]
      exact (List.Perm.cons y ih).trans (List.Perm.swap x y ys)

theorem sortDesc_aux_perm {α : Type} (l : List (Int × α)) :
    ∀ acc : List (Int × α),
      (l.foldl (fun a x => insertDesc x a) acc).Perm (l ++ acc) := by
  induction l with
  | nil => intro acc; simp
  | cons x xs ih =>
    intro acc
    have h1 := ih (insertDesc x acc)
    have h2 : (xs ++ insertDesc x acc).Perm (xs ++ x :: acc) :=
      List.Perm.append_left xs (insertDesc_perm x acc)
    have h3 : (xs ++ x :: acc).Perm (x :: (xs ++ acc)) := List.perm_middle
    simpa using (h1.trans h2).trans h3

theorem sortDesc_perm {α : Type} (l : List (Int × α)) : (sortDesc l).Perm l := by
  have h := sortDesc_aux_perm l []
  simpa [sortDesc] using h

theorem order_moves_mem {B : Type} (R : Rules B) (b : B) {l : List Move} {m : Move}
    (h : m ∈ order_moves R b l) : m ∈ l := by
  unfold order_moves at h
  obtain ⟨p, hp, hpm⟩ := List.mem_map.mp h
  have hp2 : p ∈ l.map (fun mv => (moveOrderScore R b mv, mv)) :=
    (sortDesc_perm _).mem_iff.mp hp
  obtain ⟨mv, hmv, hmvp⟩ := List.mem_map.mp hp2
  rw [← hmvp] at hpm
  have hmveq : mv = m := hpm
  rwa [hmveq] at hmv

theorem getD_mod_mem {α : Type} (l : List α) (d : α) (i : Nat) (h : l ≠ []) :
    l.getD (i % l.length) d ∈ l := by
  have hlen : 0 < l.length := List.length_pos.mpr h
  have hlt : i % l.length < l.length := Nat.mod_lt i hlen
  rw [List.getD_eq_getElem l d hlt]
  exact List.getElem_mem hlt

/-- The best move tracked by the maximizing loop is one of the iterated
moves (or the initial best). -/
theorem maxLoop_mem {B : Type} (R : Rules B)
    (f : B → Score → Score → Bool → Nat → Score × Option Move × Nat) :
    ∀ (ms : List Move) (b : B) (al be me : Score) (bst : Option Move)
      (n : Nat) (m : Move),
      (maxLoop R f ms b al be me bst n).2.1 = some m → bst = some m ∨ m ∈ ms := by
  intro ms
  induction ms with
  | nil =>
    intro b al be me bst n m h
    exact Or.inl h
  | cons mv rest ih =>
    intro b al be me bst n m h
    unfold maxLoop at h
    by_cases h1 : Score.blt me (f (R.push b mv) al be false n).1 = true
    · simp only [h1, if_true] at h
      by_cases h2 : Score.ble be
          (Score.smax al (f (R.push b mv) al be false n).1) = true
      · simp only [h2, if_true] at h
        have : mv = m := Option.some.inj h
        exact Or.inr (this ▸ List.mem_cons_self mv rest)
      · simp only [h2, Bool.false_eq_true, if_false] at h
        rcases ih b (Score.smax al (f (R.push b mv) al be false n).1) be
            (f (R.push b mv) al be false n).1 (some mv)
            (f (R.push b mv) al be false n).2.2 m h with hc | hc
        · have : mv = m := Option.some.inj hc
          exact Or.inr (this ▸ List.mem_cons_self mv rest)
        · exact Or.inr (List.mem_cons_of_mem mv hc)
    · simp only [h1, Bool.false_eq_true, if_false] at h
      by_cases h2 : Score.ble be
          (Score.smax al (f (R.push b mv) al be false n).1) = true
      · simp only [h2, if_true] at h
        exact Or.inl h
      · simp only [h2, Bool.false_eq_true, if_false] at h
        rcases ih b (Score.smax al (f (R.push b mv) al be false n).1) be
            me bst (f (R.push b mv) al be false n).2.2 m h with hc | hc
        · exact Or.inl hc
        · exact Or.inr (List.mem_cons_of_mem mv hc)

/-- The best move tracked by the minimizing loop is one of the iterated
moves (or the initial best). -/
theorem minLoop_mem {B : Type} (R : Rules B)
    (f : B → Score → Score → Bool → Nat → Score × Option Move × Nat) :
    ∀ (ms : List Move) (b : B) (al be me : Score) (bst : Option Move)
      (n : Nat) (m : Move),
      (minLoop R f ms b al be me bst n).2.1 = some m → bst = some m ∨ m ∈ ms := by
  intro ms
  induction ms with
  | nil =>
    intro b al be me bst n m h
    exact Or.inl h
  | cons mv rest ih =>
    intro b al be me bst n m h
    unfold minLoop at h
    by_cases h1 : Score.blt (f (R.push b mv) al be true n).1 me = true
    · simp only [h1, if_true] at h
      by_cases h2 : Score.ble
          (Score.smin be (f (R.push b mv) al be true n).1) al = true
      · simp only [h2, if_true] at h
        have : mv = m := Option.some.inj h
        exact Or.inr (this ▸ List.mem_cons_self mv rest)
      · simp only [h2, Bool.false_eq_true, if_false] at h
        rcases ih b al (Score.smin be (f (R.push b mv) al be true n).1)
            (f (R.push b mv) al be true n).1 (some mv)
            (f (R.push b mv) al be true n).2.2 m h with hc | hc
        · have : mv = m := Option.some.inj hc
          exact Or.inr (this ▸ List.mem_cons_self mv rest)
        · exact Or.inr (List.mem_cons_of_mem mv hc)
    · simp only [h1, Bool.false_eq_true, if_false] at h
      by_cases h2 : Score.ble
          (Score.smin be (f (R.push b mv) al be true n).1) al = true
      · simp only [h2, if_true] at h
        exact Or.inl h
      · simp only [h2, Bool.false_eq_true, if_false] at h
        rcases ih b al (Score.smin be (f (R.push b mv) al be true n).1)
            me bst (f (R.push b mv) al be true n).2.2 m h with hc | hc
        · exact Or.inl hc
        · exact Or.inr (List.mem_cons_of_mem mv hc)

/-- Any move the search proposes is legal in the searched position. -/
theorem minimax_mem {B : Type} (R : Rules B) (timeo : Nat → Bool) :
    ∀ (d : Nat) (b : B) (al be : Score) (flag : Bool) (n : Nat) (m : Move),
      (minimax R timeo d b al be flag n).2.1 = some m → m ∈ R.legalMoves b := by
  intro d
  cases d with
  | zero =>
    intro b al be flag n m h
    unfold minimax at h
    by_cases ht : timeo (n + 1) = true
    · simp only [ht, if_true] at h
      exact absurd h (by simp [minimaxTimeout])
    · simp only [ht, Bool.false_eq_true, if_false] at h
      exact absurd h (by simp [minimaxLeaf])
  | succ d =>
    intro b al be flag n m h
    unfold minimax at h
    by_cases ht : timeo (n + 1) = true
    · simp only [ht, if_true] at h
      exact absurd h (by simp [minimaxTimeout])
    · simp only [ht, Bool.false_eq_true, if_false] at h
      by_cases hg : R.isGameOver b = true
      · simp only [hg, if_true] at h
        exact absurd h (by simp [minimaxLeaf])
      · simp only [hg, Bool.false_eq_true, if_false] at h
        cases flag with
        | true =>
          simp only [if_true] at h
          rcases maxLoop_mem R (minimax R timeo d)
              (order_moves R b (R.legalMoves b)) b al be Score.negInf none (n + 1) m h
            with hc | hc
          · exact absurd hc (by simp)
          · exact order_moves_mem R b hc
        | false =>
          simp only [Bool.false_eq_true, if_false] at h
          rcases minLoop_mem R (minimax R timeo d)
              (order_moves R b (R.legalMoves b)) b al be Score.posInf none (n + 1) m h
            with hc | hc
          · exact absurd hc (by simp)
          · exact order_moves_mem R b hc

/-- An opening-book hit is a currently legal move. -/
theorem bookHit_mem {B : Type} (R : Rules B) (b : B) (om : Option String)
    {m : Move} (h : bookHit R b om = some m) : m ∈ R.legalMoves b := by
  unfold bookHit at h
  cases om with
  | none => exact absurd h (by simp)
  | some s => exact List.mem_of_find?_eq_some h

/-- With at least one legal move, the fallback stage always yields a legal
move, provided any move the search handed over was legal. -/
theorem fallbackChoice_some {B : Type} (R : Rules B) (b : B)
    (best : Option Move) (i : Nat) (hleg : R.legalMoves b ≠ [])
    (hbest : ∀ m, best = some m → m ∈ R.legalMoves b) :
    ∃ m, fallbackChoice R b best i = some m ∧ m ∈ R.legalMoves b := by
  cases best with
  | some m => exact ⟨m, rfl, hbest m rfl⟩
  | none =>
    refine ⟨(R.legalMoves b).getD (i % (R.legalMoves b).length) default, ?_, ?_⟩
    · unfold fallbackChoice
      rw [if_neg (by simpa [List.isEmpty_iff] using hleg)]
    · exact getD_mod_mem (R.legalMoves b) default i hleg

/-- A safe-move candidate is a legal move. -/
theorem safeMoves_mem {B : Type} (R : Rules B) (b : B) (perspective : Int)
    {p : Int × Move} (h : p ∈ safeMoves R b perspective) :
    p.2 ∈ R.legalMoves b := by
  unfold safeMoves at h
  obtain ⟨mv, hmv, hf⟩ := List.mem_filterMap.mp h
  by_cases hc : safety_threshold ≤ evaluate R (R.push b mv) * perspective
  · rw [if_pos hc] at hf
    have : (evaluate R (R.push b mv) * perspective, mv) = p := Option.some.inj hf
    rw [← this]
    exact hmv
  · rw [if_neg hc] at hf
    exact absurd hf (by simp)

/-- The safety net always returns a move when handed one, and the result is
legal whenever the input was. -/
theorem safetyNet_some {B : Type} (R : Rules B) (b : B) (ai_color : Option Color)
    (m : Move) (hm : m ∈ R.legalMoves b) :
    ∃ mo, safetyNet R b ai_color (some m) = some mo ∧ mo ∈ R.legalMoves b := by
  unfold safetyNet
  cases ai_color with
  | none => exact ⟨m, rfl, hm⟩
  | some ac =>
    show ∃ mo,
      (if evaluate R (R.push b m) * (if ac = Color.white then (1 : Int) else -1) <
          safety_threshold then
        match sortDesc (safeMoves R b (if ac = Color.white then (1 : Int) else -1)) with
        | [] => some m
        | best :: _ => some best.2
      else some m) = some mo ∧ mo ∈ R.legalMoves b
    by_cases hthr : evaluate R (R.push b m) *
        (if ac = Color.white then (1 : Int) else -1) < safety_threshold
    · rw [if_pos hthr]
      cases hsort : sortDesc (safeMoves R b (if ac = Color.white then (1 : Int) else -1)) with
      | nil => exact ⟨m, rfl, hm⟩
      | cons p rest =>
        refine ⟨p.2, rfl, ?_⟩
        have hp : p ∈ sortDesc (safeMoves R b (if ac = Color.white then (1 : Int) else -1)) := by
          rw [hsort]; exact List.mem_cons_self p rest
        exact safeMoves_mem R b _ ((sortDesc_perm _).mem_iff.mp hp)
    · rw [if_neg hthr]
      exact ⟨m, rfl, hm⟩

/-- C1: for every position and depth in `[1, 5]`, and for every outcome of
the random draws and of the time-budget checks, the move selector returns
`none` exactly when the position is already terminal; whenever it returns a
move code — through the opening book, the search, the random fallback or the
safety-net substitution — that code is the UCI code of a move in the current
position's legal-move set.  The single collaborator fact used is the chess
fact that a position with no legal move is game over (checkmate or
stalemate). -/
theorem c1_selector_returns_legal_moves {B : Type} (R : Rules B)
    (timeo : Nat → Bool) (b : B) (history : List Move) (ai_color : Option Color)
    (bookIdx : Nat) (themCoin : Bool) (themIdx fallbackIdx : Nat) (depth : Nat)
    (hcontract : ∀ x : B, R.legalMovesFor x (R.turn x) = [] → R.isGameOver x = true)
    (hd1 : 1 ≤ depth) (hd5 : depth ≤ 5) :
    (get_best_move_uci R timeo b history ai_color bookIdx themCoin themIdx
        fallbackIdx depth = none ↔ R.isGameOver b = true) ∧
    (∀ s, get_best_move_uci R timeo b history ai_color bookIdx themCoin themIdx
        fallbackIdx depth = some s →
      ∃ m, m ∈ R.legalMoves b ∧ Move.uci m = s) := by
  have core : (get_best_move R timeo b history ai_color bookIdx themCoin themIdx
      fallbackIdx depth = none ↔ R.isGameOver b = true) ∧
      (∀ m, get_best_move R timeo b history ai_color bookIdx themCoin themIdx
        fallbackIdx depth = some m → m ∈ R.legalMoves b) := by
    unfold get_best_move
    by_cases hg : R.isGameOver b = true
    · rw [if_pos hg]
      exact ⟨⟨fun _ => hg, fun _ => rfl⟩, fun m h => absurd h (by simp)⟩
    · rw [if_neg hg]
      have hleg : R.legalMoves b ≠ [] := fun hnil => hg (hcontract b hnil)
      show ((match bookHit R b (get_opening_move R b history ai_color bookIdx
            themCoin themIdx) with
          | some mb => some mb
          | none => safetyNet R b ai_color (fallbackChoice R b
              (minimax R timeo (max 1 (min 5 depth)) b Score.negInf Score.posInf
                (decide (R.turn b = Color.white)) 0).2.1 fallbackIdx)) = none ↔
          R.isGameOver b = true) ∧
        (∀ m, (match bookHit R b (get_opening_move R b history ai_color bookIdx
            themCoin themIdx) with
          | some mb => some mb
          | none => safetyNet R b ai_color (fallbackChoice R b
              (minimax R timeo (max 1 (min 5 depth)) b Score.negInf Score.posInf
                (decide (R.turn b = Color.white)) 0).2.1 fallbackIdx)) = some m →
          m ∈ R.legalMoves b)
      cases hbook : bookHit R b
          (get_opening_move R b history ai_color bookIdx themCoin themIdx) with
      | some mb =>
        refine ⟨⟨fun hh => absurd hh (by simp), fun hh => absurd hh hg⟩, ?_⟩
        intro m' h'
        have hmm : mb = m' := Option.some.inj h'
        exact hmm ▸ bookHit_mem R b _ hbook
      | none =>
        have hbm : ∀ mv, (minimax R timeo (max 1 (min 5 depth)) b Score.negInf
            Score.posInf (decide (R.turn b = Color.white)) 0).2.1 = some mv →
            mv ∈ R.legalMoves b :=
          fun mv h => minimax_mem R timeo _ b _ _ _ _ mv h
        obtain ⟨m1, he1, hm1⟩ := fallbackChoice_some R b
          ((minimax R timeo (max 1 (min 5 depth)) b Score.negInf Score.posInf
            (decide (R.turn b = Color.white)) 0).2.1) fallbackIdx hleg hbm
        obtain ⟨m2, he2, hm2⟩ := safetyNet_some R b ai_color m1 hm1
        show (safetyNet R b ai_color (fallbackChoice R b
            (minimax R timeo (max 1 (min 5 depth)) b Score.negInf Score.posInf
              (decide (R.turn b = Color.white)) 0).2.1 fallbackIdx) = none ↔
            R.isGameOver b = true) ∧
          (∀ m, safetyNet R b ai_color (fallbackChoice R b
            (minimax R timeo (max 1 (min 5 depth)) b Score.negInf Score.posInf
              (decide (R.turn b = Color.white)) 0).2.1 fallbackIdx) = some m →
            m ∈ R.legalMoves b)
        rw [he1, he2]
        exact ⟨⟨fun hh => absurd hh (by simp), fun hh => absurd hh hg⟩,
          fun m h => (Option.some.inj h) ▸ hm2⟩
  constructor
  · rw [get_best_move_uci, Option.map_eq_none']
    exact core.1
  · intro s hs
    rw [get_best_move_uci] at hs
    obtain ⟨m, hm, hus⟩ := Option.map_eq_some'.mp hs
    exact ⟨m, core.2 m hm, hus⟩

/-- Witness for C1: on the one-move position `rootC1` (not terminal), the
selector returns the single legal move's code; the terminal `staleLeaf`
returns `none`. -/
theorem c1_selector_returns_legal_moves_witness :
    (get_best_move_uci TR (fun _ => false) rootC1 [] none 0 false 0 0 2 = none ↔
      TR.isGameOver rootC1 = true) ∧
    (∀ s, get_best_move_uci TR (fun _ => false) rootC1 [] none 0 false 0 0 2 =
        some s → ∃ m, m ∈ TR.legalMoves rootC1 ∧ Move.uci m = s) :=
  c1_selector_returns_legal_moves TR (fun _ => false) rootC1 [] none 0 false 0 0 2
    TR_no_moves_game_over (by decide) (by decide)

/-- Witness for C10: a concrete quiescence call with the window `[0, 10]`. -/
theorem c10_quiescence_fail_hard_witness :
    Score.ble (Score.int 0)
        (quiescence TR 5 (leafE 2) (Score.int 0) (Score.int 10) 0).1 = true ∧
      Score.ble (quiescence TR 5 (leafE 2) (Score.int 0) (Score.int 10) 0).1
        (Score.int 10) = true :=
  c10_quiescence_fail_hard TR 5 (leafE 2) (Score.int 0) (Score.int 10) 0 (by decide)

/-- C2: on the fixed non-terminal test position `rootC2` (Black to move) at
the fixed small depth 2 with the time budget never exceeded, the alpha-beta
pruned search returns score 10 while the unpruned full minimax over the same
position to the same depth returns 15: pruning changes the returned score.
(The `depth == 0` leaf branch hands `quiescence` the White-perspective
`(alpha, beta)` window, but quiescence scores from the side to move and is
fail-hard, so at a Black-to-move horizon leaf the White-perspective value is
clamped into `[-beta, -alpha]` instead of `[alpha, beta]`.) -/
theorem c2_pruned_search_score_differs_from_unpruned :
    (minimax TR (fun _ => false) 2 rootC2 Score.negInf Score.posInf
        (decide (TR.turn rootC2 = Color.white)) 0).1 = Score.int 10 ∧
    unprunedMinimax TR 2 rootC2 (decide (TR.turn rootC2 = Color.white)) = Score.int 15 ∧
    (minimax TR (fun _ => false) 2 rootC2 Score.negInf Score.posInf
        (decide (TR.turn rootC2 = Color.white)) 0).1 ≠
      unprunedMinimax TR 2 rootC2 (decide (TR.turn rootC2 = Color.white)) := by
  set_option maxRecDepth 4000 in
  refine ⟨by decide, by decide, by decide⟩

/-- C4: checkmate evaluates to −30000 with White to move and +30000 with
Black to move; a position that is not checkmate but is stalemate or has
insufficient material evaluates to exactly 0. -/
theorem c4_terminal_evaluation {B : Type} (R : Rules B) (b : B) :
    (R.isCheckmate b = true → R.turn b = Color.white → evaluate R b = -30000) ∧
    (R.isCheckmate b = true → R.turn b = Color.black → evaluate R b = 30000) ∧
    (R.isCheckmate b = false →
      (R.isStalemate b = true ∨ R.isInsufficientMaterial b = true) →
      evaluate R b = 0) := by
  refine ⟨fun hm ht => ?_, fun hm ht => ?_, fun hm hs => ?_⟩
  · simp [evaluate, hm, ht]
  · simp [evaluate, hm, ht]
  · rcases hs with hs | hs <;> simp [evaluate, hm, hs]

/-- Witness for C4 on concrete positions. -/
theorem c4_terminal_evaluation_witness :
    evaluate TR bMateW = -30000 ∧ evaluate TR bMateB = 30000 ∧
      evaluate TR bStale = 0 :=
  ⟨(c4_terminal_evaluation TR bMateW).1 (by decide) (by decide),
   (c4_terminal_evaluation TR bMateB).2.1 (by decide) (by decide),
   (c4_terminal_evaluation TR bStale).2.2 (by decide) (Or.inl (by decide))⟩

/-- C5 counterexample: on `pQ` (one queen on the board, no minor pieces) the
claim's detector ("queens present and each side has at most 2 minor pieces")
is satisfied, but the implemented detector returns `false` — the code demands
exactly two queens in total, not merely "queens present", and bounds the
total minor-piece count of both sides, not each side's. -/
theorem c5_endgame_detector_counterexample :
    is_endgame_claim TR pQ ∧ is_endgame TR pQ = false := by
  refine ⟨by decide, by decide⟩

/-- C5 amended: the endgame detector returns true iff all queens are off the
board, or the two sides together have exactly 2 queens and at most 2 minor
pieces (knights plus bishops) in total. -/
theorem c5_endgame_detector_amended {B : Type} (R : Rules B) (b : B) :
    is_endgame R b = true ↔
      (R.piecesCount b PieceType.queen Color.white +
         R.piecesCount b PieceType.queen Color.black = 0 ∨
       (R.piecesCount b PieceType.queen Color.white +
          R.piecesCount b PieceType.queen Color.black = 2 ∧
        R.piecesCount b PieceType.knight Color.white +
          R.piecesCount b PieceType.bishop Color.white +
          R.piecesCount b PieceType.knight Color.black +
          R.piecesCount b PieceType.bishop Color.black ≤ 2)) := by
  simp [is_endgame]

/-- C6: a rejected move — malformed code, or a syntactically valid code whose
move is not in the current legal-move set — reports failure and returns the
state exactly as it was: position, played history and undone stack all
unchanged. -/
theorem c6_make_move_rejection_frame {B : Type} (R : Rules B)
    (st : EngineState B) (s : String)
    (h : ∀ m, Move.fromUci s = some m → m ∉ R.legalMoves st.board.pos) :
    make_move R st s = (st, false) := by
  unfold make_move
  cases hm : Move.fromUci s with
  | none => rfl
  | some m =>
    have hnot := h m hm
    simp [hnot]

/-- Witness for C6: the legal board move e2e4 is not legal on `stC6`. -/
theorem c6_make_move_rejection_frame_witness :
    make_move TR stC6 ("e2e4") = (stC6, false) :=
  c6_make_move_rejection_frame TR stC6 ("e2e4") (by
    intro m hm
    rw [show Move.fromUci ("e2e4") = some (Move.mk 12 28 none) from by decide] at hm
    cases hm
    decide)

/-- C7: a successful `make_move` leaves the redo stack empty, whatever it
contained before; and `redo_move` pushes the most recently undone move back
onto the played history, so that the position again equals the replay of the
played history from the start position (assuming it did before the call). -/
theorem c7_new_move_clears_redo_and_redo_replays {B : Type} (R : Rules B)
    (st st2 : EngineState B) (s : String) (m : Move) (rest : List Move) :
    ((make_move R st s).2 = true → (make_move R st s).1.redo_stack = []) ∧
    (st2.redo_stack = rest ++ [m] →
      st2.board.pos = replayBoard R st2.move_history →
      (redo_move R st2).1.move_history = st2.move_history ++ [m] ∧
      (redo_move R st2).2 = some (Move.uci m) ∧
      (redo_move R st2).1.board.pos =
        replayBoard R ((redo_move R st2).1.move_history)) := by
  constructor
  · intro hs
    unfold make_move at hs ⊢
    cases hm : Move.fromUci s with
    | none => rw [hm] at hs; simp at hs
    | some mv =>
      by_cases hleg : mv ∈ R.legalMoves st.board.pos
      · simp [hleg]
      · rw [hm] at hs; simp [hleg] at hs
  · intro hr hp
    have hlast : st2.redo_stack.getLast? = some m := by
      rw [hr]; exact List.getLast?_concat rest
    unfold redo_move
    rw [hlast]
    refine ⟨rfl, rfl, ?_⟩
    show R.push st2.board.pos m = replayBoard R (st2.move_history ++ [m])
    rw [hp]
    unfold replayBoard
    rw [List.foldl_append]
    rfl

/-- Witness for C7 on concrete states. -/
theorem c7_new_move_clears_redo_and_redo_replays_witness :
    (make_move TR stC7 ("a1a1")).1.redo_stack = [] ∧
    ((redo_move TR stRedo).1.move_history = [] ++ [mv0] ∧
     (redo_move TR stRedo).2 = some (Move.uci mv0) ∧
     (redo_move TR stRedo).1.board.pos =
       replayBoard TR ((redo_move TR stRedo).1.move_history)) :=
  ⟨(c7_new_move_clears_redo_and_redo_replays TR stC7 stRedo ("a1a1") mv0 []).1
      (by decide),
   (c7_new_move_clears_redo_and_redo_replays TR stC7 stRedo ("a1a1") mv0 []).2
      (by decide) rfl⟩

/-- C8: whatever `get_best_move_for_fen` is called with — an invalid FEN
(rejected before any mutation) or a valid one (scratch board installed, then
the remembered board and stacks restored in the `finally` block) — the
session's position, played-move history and undone-move stack afterwards
equal their values before the call. -/
theorem c8_fen_evaluation_frame {B : Type} (R : Rules B) (timeo : Nat → Bool)
    (st : EngineState B) (fen : String) (bookIdx : Nat) (themCoin : Bool)
    (themIdx fallbackIdx depth : Nat) :
    (get_best_move_for_fen R timeo st fen bookIdx themCoin themIdx fallbackIdx
        depth).2.board = st.board ∧
    (get_best_move_for_fen R timeo st fen bookIdx themCoin themIdx fallbackIdx
        depth).2.move_history = st.move_history ∧
    (get_best_move_for_fen R timeo st fen bookIdx themCoin themIdx fallbackIdx
        depth).2.redo_stack = st.redo_stack := by
  unfold get_best_move_for_fen
  cases R.parseFen fen with
  | none => exact ⟨rfl, rfl, rfl⟩
  | some pos => exact ⟨rfl, rfl, rfl⟩

end ChessEngineModel
